import Mathlib

/-!
Shallow embedding of the `sudare` terminal process multiplexer
(`src/main.rs`).  Rust strings are modelled as `List Char`, byte buffers as
`List Nat`, fallible/panicking code as `Option`, and the effectful pty
environment as explicit function parameters.  Definitions follow the source
function by function; theorems settle the frozen claims about them.
-/

namespace Sudare

/-- Rust `String` / `&str`, modelled as a list of characters. -/
abbrev RStr := List Char

/-! ## parse_procfile (src/main.rs lines 32-78) -/

/-- `Process` enum: `Null` (the Disabled placeholder) or `Command{label, argv}`. -/
inductive Process where
  | null : Process
  | command (label : RStr) (argv : RStr) : Process
deriving DecidableEq, Repr

/-- `ProcessGroup { title, members }`. -/
structure ProcessGroup where
  title : RStr
  members : List Process
deriving DecidableEq, Repr

/-- `type Procfile = Vec<ProcessGroup>`. -/
abbrev Procfile := List ProcessGroup

/-- Rust `l.starts_with("#")`. -/
def startsWithHash : RStr → Bool
  | [] => false
  | c :: _ => c = '#'

/-- Rust `l.splitn(2, ":")` with both components demanded (`it.next().unwrap()`
twice): `some (before, after)` splits at the first colon; `none` models the
panic when the line holds no colon (the second `unwrap` fails). -/
def splitFirstColon : RStr → Option (RStr × RStr)
  | [] => none
  | c :: rest =>
    if c = ':' then some ([], rest)
    else (splitFirstColon rest).map fun p => (c :: p.1, p.2)

/-- Split a character list at every occurrence of `c` (helper for `lines()`);
always returns a non-empty list of segments. -/
def splitOnChar (c : Char) : RStr → List RStr
  | [] => [[]]
  | x :: xs =>
    let r := splitOnChar c xs
    if x = c then [] :: r
    else
      match r with
      | y :: ys => (x :: y) :: ys
      | [] => [[x]]

/-- Strip one trailing carriage return, as `BufRead::lines` does for CRLF. -/
def stripCR (l : RStr) : RStr :=
  match l.getLast? with
  | some '\r' => l.dropLast
  | _ => l

/-- `BufReader::lines()`: split on `'\n'`, no empty line after a trailing
newline, CRLF treated as a line terminator. -/
def linesOf (input : RStr) : List RStr :=
  let ls := splitOnChar '\n' input
  let ls := if ls.getLast? = some [] then ls.dropLast else ls
  ls.map stripCR

/-- The `filter(|l| !l.starts_with("#") || l.contains(":"))` stage: the lines
the parser actually processes. -/
def retainedLines (input : RStr) : List RStr :=
  (linesOf input).filter fun l => !startsWithHash l || l.contains ':'

/-- Rust `str::trim` (ASCII/Unicode whitespace at both ends). -/
def trimStr (s : RStr) : RStr :=
  ((s.dropWhile Char.isWhitespace).reverse.dropWhile Char.isWhitespace).reverse

/-- Split `xs` as `a ++ '[' :: b` at the last `'['` that leaves `b` non-empty
(helper for the greedy regex match). -/
def splitAtLastBracket : RStr → Option (RStr × RStr)
  | [] => none
  | c :: rest =>
    match splitAtLastBracket rest with
    | some p => some (c :: p.1, p.2)
    | none => if c = '[' && !rest.isEmpty then some ([], rest) else none

/-- `Regex::new(r"^(.+)\[(.+)\]$").captures(title)`: with greedy matching the
first group is the maximal non-empty prefix followed by `'['`, a non-empty
second group, and a final `']'`; equivalently, split the body before the
final `']'` at its last viable `'['`. -/
def reCaptures (title : RStr) : Option (RStr × RStr) :=
  match title.getLast? with
  | some ']' =>
    match splitAtLastBracket title.dropLast with
    | some p => if p.1.isEmpty then none else some p
    | none => none
  | _ => none

/-- One retained line to `(title, label, trimmed command)`; `none` models the
panic on a colon-free line. -/
def parseLine (l : RStr) : Option (RStr × RStr × RStr) :=
  (splitFirstColon l).map fun tc =>
    let ab := (reCaptures tc.1).getD (tc.1, "default".toList)
    (ab.1, ab.2, trimStr tc.2)

/-- Map `parseLine` over all retained lines, propagating a panic. -/
def parseLines : List RStr → Option (List (RStr × RStr × RStr))
  | [] => some []
  | l :: ls =>
    match parseLine l, parseLines ls with
    | some e, some es => some (e :: es)
    | _, _ => none

/-- `BTreeMap::entry(k).or_default().push(v)`: association-list model of the
title → members map (only `get` is observed, so list position is irrelevant). -/
def mapPush (m : List (RStr × List (RStr × RStr))) (k : RStr) (v : RStr × RStr) :
    List (RStr × List (RStr × RStr)) :=
  match m with
  | [] => [(k, [v])]
  | kv :: rest => if k = kv.1 then (kv.1, kv.2 ++ [v]) :: rest else kv :: mapPush rest k v

/-- `BTreeMap::get`. -/
def lookupA (m : List (RStr × List (RStr × RStr))) (k : RStr) :
    Option (List (RStr × RStr)) :=
  match m with
  | [] => none
  | kv :: rest => if k = kv.1 then some kv.2 else lookupA rest k

/-- The fold step of `parse_procfile`: record first-seen titles in order and
push `(label, cmd)` under the title. -/
def procStep (acc : List RStr × List (RStr × List (RStr × RStr)))
    (e : RStr × RStr × RStr) : List RStr × List (RStr × List (RStr × RStr)) :=
  (if e.1 ∈ acc.1 then acc.1 else acc.1 ++ [e.1], mapPush acc.2 e.1 (e.2.1, e.2.2))

/-- The final mapping stage of `parse_procfile`: one group per first-seen
title, `Process::Null` prepended to the collected commands. -/
def buildGroups (es : List (RStr × RStr × RStr)) : Procfile :=
  let om := es.foldl procStep ([], [])
  om.1.map fun t =>
    { title := t,
      members := Process.null ::
        ((lookupA om.2 t).getD []).map fun bc => Process.command bc.1 bc.2 }

/-- `parse_procfile`, from the file contents (the `File::open` IO layer is
outside the model); `none` models a panic on a retained colon-free line. -/
def parse_procfile (input : RStr) : Option Procfile :=
  (parseLines (retainedLines input)).map buildGroups

/-! ## Spec-side order/merge functions (independent formulations for C5) -/

/-- Keep the first occurrence of every element, in first-seen order. -/
def dedupFirst : List RStr → List RStr
  | [] => []
  | t :: ts => t :: dedupFirst (ts.filter fun s => s ≠ t)
termination_by l => l.length
decreasing_by simpa using Nat.lt_succ_of_le (List.length_filter_le _ _)

/-- All `(label, cmd)` pairs of entries carrying title `t`, in input order. -/
def groupedEntries (t : RStr) (es : List (RStr × RStr × RStr)) : List (RStr × RStr) :=
  (es.filter fun e => e.1 = t).map fun e => (e.2.1, e.2.2)

/-- The first (ordered-titles) component of the parse fold, in isolation. -/
def orderedStep (o : List RStr) (t : RStr) : List RStr :=
  if t ∈ o then o else o ++ [t]

/-- The second (title-map) component of the parse fold, in isolation. -/
def mapStep (m : List (RStr × List (RStr × RStr))) (e : RStr × RStr × RStr) :
    List (RStr × List (RStr × RStr)) :=
  mapPush m e.1 (e.2.1, e.2.2)

theorem mem_dedupFirst : ∀ (l : List RStr) (t : RStr), t ∈ dedupFirst l ↔ t ∈ l
  | [], t => by simp [dedupFirst]
  | s :: ts, t => by
    rw [dedupFirst]
    have ih := mem_dedupFirst (ts.filter fun x => x ≠ s) t
    simp only [List.mem_filter, List.mem_cons, decide_eq_true_eq] at ih ⊢
    rw [ih]
    by_cases h : t = s <;> simp [h]
termination_by l => l.length
decreasing_by simpa using Nat.lt_succ_of_le (List.length_filter_le _ _)

theorem foldl_procStep_fst (es : List (RStr × RStr × RStr))
    (o : List RStr) (m : List (RStr × List (RStr × RStr))) :
    (es.foldl procStep (o, m)).1 = (es.map (·.1)).foldl orderedStep o := by
  induction es generalizing o m with
  | nil => rfl
  | cons e es ih =>
    simp only [List.foldl_cons, List.map_cons, procStep, orderedStep]
    by_cases h : e.1 ∈ o <;> simp only [h, if_true, if_false, ih]

theorem foldl_procStep_snd (es : List (RStr × RStr × RStr))
    (o : List RStr) (m : List (RStr × List (RStr × RStr))) :
    (es.foldl procStep (o, m)).2 = es.foldl mapStep m := by
  induction es generalizing o m with
  | nil => rfl
  | cons e es ih =>
    simp only [List.foldl_cons, procStep, mapStep, ih]

theorem dedupFirst_cons (t : RStr) (ts : List RStr) :
    dedupFirst (t :: ts) = t :: dedupFirst (ts.filter fun s => s ≠ t) := by
  rw [dedupFirst]

theorem foldl_orderedStep : ∀ (ts : List RStr) (o : List RStr),
    ts.foldl orderedStep o = o ++ dedupFirst (ts.filter fun t => t ∉ o)
  | [], o => by simp [dedupFirst]
  | t :: ts, o => by
    by_cases h : t ∈ o
    · have h1 : orderedStep o t = o := by simp [orderedStep, h]
      have h2 : (t :: ts).filter (fun s => decide (s ∉ o))
          = ts.filter fun s => decide (s ∉ o) := by
        simp [List.filter_cons, h]
      rw [List.foldl_cons, h1, h2]
      exact foldl_orderedStep ts o
    · have h1 : orderedStep o t = o ++ [t] := by simp [orderedStep, h]
      have h2 : (t :: ts).filter (fun s => decide (s ∉ o))
          = t :: ts.filter fun s => decide (s ∉ o) := by
        simp [List.filter_cons, h]
      rw [List.foldl_cons, h1, h2, foldl_orderedStep ts (o ++ [t]), dedupFirst_cons]
      have h3 : (ts.filter fun s => decide (s ∉ o)).filter (fun s => decide (s ≠ t))
          = ts.filter fun s => decide (s ∉ o ++ [t]) := by
        rw [List.filter_filter]
        apply List.filter_congr
        intro a _
        by_cases h1 : a = t <;> by_cases h2 : a ∈ o <;>
          simp [h1, h2, List.mem_append]
      rw [h3, List.append_assoc, List.singleton_append]

theorem lookupA_mapPush (m : List (RStr × List (RStr × RStr)))
    (k t : RStr) (v : RStr × RStr) :
    lookupA (mapPush m k v) t =
      if t = k then some ((lookupA m k).getD [] ++ [v]) else lookupA m t := by
  induction m with
  | nil =>
    by_cases h : t = k <;> simp [mapPush, lookupA, h]
  | cons kv rest ih =>
    obtain ⟨k1, vs1⟩ := kv
    by_cases hk : k = k1
    · subst hk
      by_cases ht : t = k
      · subst ht
        simp [mapPush, lookupA]
      · simp [mapPush, lookupA, ht]
    · by_cases ht : t = k1
      · subst ht
        have htk : ¬ t = k := fun hc => hk hc.symm
        simp [mapPush, lookupA, hk, htk]
      · simp [mapPush, lookupA, hk, ht, ih]

theorem lookupA_foldl_mapStep : ∀ (es : List (RStr × RStr × RStr))
    (m : List (RStr × List (RStr × RStr))) (t : RStr),
    lookupA (es.foldl mapStep m) t =
      match lookupA m t with
      | some vs => some (vs ++ groupedEntries t es)
      | none =>
        if t ∈ es.map (·.1) then some (groupedEntries t es) else none
  | [], m, t => by
    cases h : lookupA m t <;> simp [h, groupedEntries]
  | e :: es, m, t => by
    simp only [List.foldl_cons]
    rw [lookupA_foldl_mapStep es (mapStep m e) t]
    rw [show mapStep m e = mapPush m e.1 (e.2.1, e.2.2) from rfl,
        lookupA_mapPush m e.1 t (e.2.1, e.2.2)]
    by_cases ht : t = e.1
    · subst ht
      have hg : groupedEntries e.1 (e :: es) = e.2 :: groupedEntries e.1 es := by
        simp [groupedEntries, List.filter_cons]
      cases h : lookupA m e.1 with
      | some vs => simp [h, hg, List.append_assoc]
      | none => simp [h, hg]
    · have hne : ¬ e.1 = t := fun hh => ht hh.symm
      have hg : groupedEntries t (e :: es) = groupedEntries t es := by
        simp [groupedEntries, List.filter_cons, hne]
      rw [if_neg ht]
      cases h : lookupA m t with
      | some vs => simp [h, hg]
      | none =>
        by_cases hmem : t ∈ es.map (·.1) <;>
          simp [h, hg, hmem, List.mem_cons, ht]

theorem splitFirstColon_isSome (l : RStr) :
    (splitFirstColon l).isSome ↔ ':' ∈ l := by
  induction l with
  | nil => simp [splitFirstColon]
  | cons c rest ih =>
    by_cases h : c = ':'
    · simp [splitFirstColon, h]
    · simp [splitFirstColon, h, ih, List.mem_cons, Ne.symm h]

theorem splitFirstColon_append (a b : RStr) (ha : ':' ∉ a) :
    splitFirstColon (a ++ ':' :: b) = some (a, b) := by
  induction a with
  | nil => simp [splitFirstColon]
  | cons c rest ih =>
    have hc : ¬ c = ':' := fun hh => ha (hh ▸ List.mem_cons_self c rest)
    have hrest : ':' ∉ rest := fun hh => ha (List.mem_cons_of_mem c hh)
    simp [splitFirstColon, hc, ih hrest]

theorem parseLine_isSome (l : RStr) :
    (parseLine l).isSome ↔ ':' ∈ l := by
  rw [← splitFirstColon_isSome l, parseLine]
  cases splitFirstColon l <;> simp

theorem parseLines_isSome (ls : List RStr) :
    (parseLines ls).isSome ↔ ∀ l ∈ ls, ':' ∈ l := by
  induction ls with
  | nil => simp [parseLines]
  | cons l ls ih =>
    rw [parseLines]
    cases h1 : parseLine l with
    | none =>
      have : ¬ ':' ∈ l := by
        rw [← parseLine_isSome]
        simp [h1]
      simp [this]
    | some e =>
      have hl : ':' ∈ l := by
        rw [← parseLine_isSome]
        simp [h1]
      cases h2 : parseLines ls with
      | none => simp [← ih, h2, hl]
      | some es => simp [← ih, h2, hl]

theorem map_title_mk (f : RStr → List Process) (ts : List RStr) :
    (ts.map fun t => ProcessGroup.mk t (f t)).map (·.title) = ts := by
  rw [List.map_map]
  show ts.map (fun t => t) = ts
  simp

theorem buildGroups_titles (es : List (RStr × RStr × RStr)) :
    (buildGroups es).map (·.title) = dedupFirst (es.map (·.1)) := by
  have h1 : (es.foldl procStep ([], [])).1 = (es.map (·.1)).foldl orderedStep [] :=
    foldl_procStep_fst es [] []
  have h2 := foldl_orderedStep (es.map (·.1)) []
  simp only [List.nil_append] at h2
  have h3 : ((es.map (·.1)).filter fun t => t ∉ ([] : List RStr)) = es.map (·.1) := by
    simp
  rw [buildGroups, map_title_mk, h1, h2, h3]

theorem buildGroups_members (es : List (RStr × RStr × RStr))
    (g : ProcessGroup) (hg : g ∈ buildGroups es) :
    g.members = Process.null ::
      (groupedEntries g.title es).map fun bc => Process.command bc.1 bc.2 := by
  rw [buildGroups] at hg
  obtain ⟨t, hmem, rfl⟩ := List.mem_map.mp hg
  have ht : t ∈ es.map (·.1) := by
    have h1 : (es.foldl procStep ([], [])).1 = (es.map (·.1)).foldl orderedStep [] :=
      foldl_procStep_fst es [] []
    rw [h1] at hmem
    have h2 := foldl_orderedStep (es.map (·.1)) []
    simp only [List.nil_append] at h2
    rw [h2] at hmem
    rw [mem_dedupFirst] at hmem
    simpa using hmem
  have hsnd : (es.foldl procStep ([], [])).2 = es.foldl mapStep [] :=
    foldl_procStep_snd es [] []
  have hlook : lookupA (es.foldl mapStep []) t = some (groupedEntries t es) := by
    rw [lookupA_foldl_mapStep es [] t]
    simp [lookupA, ht]
  simp [hsnd, hlook]

/-- C5: parsing yields Groups in first-seen title order with duplicate titles
merged (members concatenated in first-seen order), every Group has the
Disabled member at index 0, each line splits at its first colon only, and the
input `"web: echo hi\nweb[worker]: echo bye\n"` yields exactly one Group
titled `"web"` with members
`[Disabled, Command{default, echo hi}, Command{worker, echo bye}]`. -/
theorem C5_parse_procfile (input : RStr) (es : List (RStr × RStr × RStr))
    (gs : Procfile) (hes : parseLines (retainedLines input) = some es)
    (hgs : parse_procfile input = some gs) :
    gs.map (·.title) = dedupFirst (es.map (·.1))
    ∧ (∀ g ∈ gs, g.members = Process.null ::
        (groupedEntries g.title es).map fun bc => Process.command bc.1 bc.2)
    ∧ (∀ a b : RStr, ':' ∉ a → splitFirstColon (a ++ ':' :: b) = some (a, b))
    ∧ parse_procfile ("web: echo hi\nweb[worker]: echo bye\n".toList)
        = some [⟨"web".toList, [Process.null,
            Process.command "default".toList "echo hi".toList,
            Process.command "worker".toList "echo bye".toList]⟩] := by
  have hb : gs = buildGroups es := by
    rw [parse_procfile, hes] at hgs
    simpa using hgs.symm
  subst hb
  refine ⟨buildGroups_titles es, fun g hg => buildGroups_members es g hg,
    fun a b ha => splitFirstColon_append a b ha, by decide⟩

theorem C5_parse_procfile_witness :
    parseLines (retainedLines ("web: echo hi\nweb[worker]: echo bye\n".toList))
      = some [("web".toList, "default".toList, "echo hi".toList),
              ("web".toList, "worker".toList, "echo bye".toList)]
    ∧ parse_procfile ("web: echo hi\nweb[worker]: echo bye\n".toList)
        = some [⟨"web".toList, [Process.null,
            Process.command "default".toList "echo hi".toList,
            Process.command "worker".toList "echo bye".toList]⟩] := by
  have h := C5_parse_procfile ("web: echo hi\nweb[worker]: echo bye\n".toList)
    [("web".toList, "default".toList, "echo hi".toList),
     ("web".toList, "worker".toList, "echo bye".toList)]
    [⟨"web".toList, [Process.null,
        Process.command "default".toList "echo hi".toList,
        Process.command "worker".toList "echo bye".toList]⟩]
    (by decide) (by decide)
  exact ⟨by decide, h.2.2.2⟩

/-- C10: `parse_procfile` succeeds exactly when every retained line (kept by
the `!starts_with("#") || contains(":")` filter) holds a colon; a retained
colon-free line makes the second `splitn` component's `unwrap` panic (modelled
as `none`) instead of producing an `Err`. -/
theorem C10_parse_procfile_total (input : RStr) :
    (parse_procfile input).isSome ↔ ∀ l ∈ retainedLines input, ':' ∈ l := by
  rw [parse_procfile, ← parseLines_isSome]
  cases parseLines (retainedLines input) <;> simp

/-! ## PtyProcess (src/main.rs lines 533-663) -/

/-- Observable state of a `PtyProcess`: the pending chunks of the reader
thread's mpsc channel (`receiver`), the child's current `try_wait` answer
(`none` = still running), and the `exit_status` field.  The pty pair and
thread handles carry no further observable state. -/
structure PtyProcess where
  queue : List (List Nat)
  child_status : Option Nat
  exit_status : Option Nat
deriving DecidableEq, Repr

/-- Fresh process as built by `PtyProcess::new`: empty channel, child running,
`exit_status: None`. -/
def PtyProcess.fresh : PtyProcess :=
  { queue := [], child_status := none, exit_status := none }

/-- The `loop { try_recv ... }` of `poll`: append chunks in order, break once
the buffer length exceeds 16384 or the channel is drained. -/
def drainLoop : List (List Nat) → List Nat → List Nat × List (List Nat)
  | [], buf => (buf, [])
  | b :: rest, buf =>
    let buf2 := buf ++ b
    if buf2.length > 16384 then (buf2, rest) else drainLoop rest buf2

/-- The `"[process exited with {}]"` marker bytes for exit code `n`. -/
def exitMarker (n : Nat) : List Nat :=
  ("[process exited with ".toList ++ (Nat.repr n).toList ++ "]".toList).map Char.toNat

/-- `PtyProcess::poll`: drain queued chunks, then if `try_wait` reports an
exit not yet recorded in `exit_status`, append the marker and record it. -/
def PtyProcess.poll (p : PtyProcess) : List Nat × PtyProcess :=
  let br := drainLoop p.queue []
  match p.child_status with
  | some r =>
    if p.exit_status.isNone then
      (br.1 ++ exitMarker r, { p with queue := br.2, exit_status := some r })
    else (br.1, { p with queue := br.2 })
  | none => (br.1, { p with queue := br.2 })

/-- One tick of the environment between two polls: the reader thread may push
chunks and the child may exit (`child_status` is monotone: once `some` it
stays, which models that a dead child never resurrects). -/
structure EnvStep where
  chunks : List (List Nat)
  exitEvent : Option Nat

/-- Apply an environment tick to the process state. -/
def envApply (e : EnvStep) (p : PtyProcess) : PtyProcess :=
  { p with queue := p.queue ++ e.chunks,
           child_status := p.child_status <|> e.exitEvent }

/-- Alternate environment ticks and `poll` calls; record each poll's returned
bytes and whether that poll appended the exit marker. -/
def runPolls (p : PtyProcess) : List EnvStep → List (List Nat × Bool)
  | [] => []
  | e :: es =>
    let p1 := envApply e p
    let out := p1.poll
    (out.1, p1.child_status.isSome && p1.exit_status.isNone) :: runPolls out.2 es

/-- How many polls of the run appended the exit marker. -/
def markerCount (tr : List (List Nat × Bool)) : Nat :=
  tr.countP (·.2)

theorem drainLoop_spec : ∀ (q : List (List Nat)) (buf : List Nat),
    buf.length ≤ 16384 →
    ∃ k, (drainLoop q buf).1 = buf ++ (q.take k).flatten
      ∧ (drainLoop q buf).2 = q.drop k
      ∧ (k < q.length → (buf ++ (q.take k).flatten).length > 16384)
      ∧ (buf ++ ((q.take k).dropLast).flatten).length ≤ 16384
  | [], buf, h => by
    refine ⟨0, by simp [drainLoop], by simp [drainLoop], by simp, by simpa using h⟩
  | b :: rest, buf, h => by
    by_cases hb : 16384 < buf.length + b.length
    · refine ⟨1, ?_, ?_, ?_, ?_⟩
      · simp [drainLoop, hb]
      · simp [drainLoop, hb]
      · intro _
        simpa using hb
      · simpa using h
    · have hle : (buf ++ b).length ≤ 16384 := by
        simpa using Nat.le_of_not_lt hb
      obtain ⟨k, h1, h2, h3, h4⟩ := drainLoop_spec rest (buf ++ b) hle
      have hd : drainLoop (b :: rest) buf = drainLoop rest (buf ++ b) := by
        simp [drainLoop, hb]
      refine ⟨k + 1, ?_, ?_, ?_, ?_⟩
      · rw [hd, h1]
        simp [List.append_assoc]
      · rw [hd, h2]
        simp
      · intro hk
        have : k < rest.length := by simpa using hk
        have := h3 this
        simpa [List.append_assoc] using this
      · cases htk : rest.take k with
        | nil =>
          simpa [htk] using h
        | cons x xs =>
          have : (b :: rest.take k).dropLast = b :: (rest.take k).dropLast := by
            rw [htk]
            simp
          simp only [List.take_succ_cons, this]
          simpa [List.append_assoc] using h4

theorem poll_spec (p : PtyProcess) : ∃ k,
    p.poll.1 = (p.queue.take k).flatten ++
      (match p.child_status with
       | some r => if p.exit_status = none then exitMarker r else []
       | none => [])
    ∧ p.poll.2.queue = p.queue.drop k
    ∧ (k < p.queue.length → ((p.queue.take k).flatten).length > 16384)
    ∧ (((p.queue.take k).dropLast).flatten).length ≤ 16384
    ∧ p.poll.2.child_status = p.child_status
    ∧ p.poll.2.exit_status =
        (match p.child_status with
         | some r => if p.exit_status = none then some r else p.exit_status
         | none => p.exit_status) := by
  obtain ⟨k, h1, h2, h3, h4⟩ := drainLoop_spec p.queue [] (by simp)
  simp only [List.nil_append] at h1 h3 h4
  refine ⟨k, ?_, ?_, fun hk => h3 hk, h4, ?_, ?_⟩ <;>
    cases hc : p.child_status <;> cases he : p.exit_status <;>
      simp [PtyProcess.poll, hc, he, h1, h2]

theorem poll_snd_child (p : PtyProcess) :
    p.poll.2.child_status = p.child_status := by
  cases hc : p.child_status <;> cases he : p.exit_status <;>
    simp [PtyProcess.poll, hc, he]

theorem poll_snd_exit_of_isSome (p : PtyProcess) (h : p.exit_status.isSome) :
    p.poll.2.exit_status = p.exit_status := by
  cases hc : p.child_status <;> cases he : p.exit_status
  · simp [he] at h
  · simp [PtyProcess.poll, hc, he]
  · simp [he] at h
  · simp [PtyProcess.poll, hc, he]

theorem poll_snd_exit_of_none (p : PtyProcess) (h : p.exit_status = none) :
    p.poll.2.exit_status = p.child_status := by
  cases hc : p.child_status <;> simp [PtyProcess.poll, hc, h]

theorem markerCount_of_exited : ∀ (steps : List EnvStep) (p : PtyProcess),
    p.exit_status.isSome → markerCount (runPolls p steps) = 0
  | [], p, _ => rfl
  | e :: es, p, h => by
    have h1 : (envApply e p).exit_status = p.exit_status := rfl
    have hflag : ((envApply e p).child_status.isSome
        && (envApply e p).exit_status.isNone) = false := by
      rw [h1]
      cases he : p.exit_status with
      | none => simp [he] at h
      | some r => simp
    have h2 : ((envApply e p).poll.2).exit_status = p.exit_status := by
      rw [poll_snd_exit_of_isSome (envApply e p) (h1 ▸ h), h1]
    rw [runPolls, markerCount, List.countP_cons]
    have ih := markerCount_of_exited es ((envApply e p).poll.2) (h2 ▸ h)
    rw [markerCount] at ih
    simp [hflag, ih]

theorem markerCount_run : ∀ (steps : List EnvStep) (p : PtyProcess),
    p.exit_status = none → p.child_status = none →
    markerCount (runPolls p steps)
      = if steps.any (fun s => s.exitEvent.isSome) then 1 else 0
  | [], p, _, _ => rfl
  | e :: es, p, hexit, hchild => by
    have hc1 : (envApply e p).child_status = e.exitEvent := by
      simp [envApply, hchild]
    have he1 : (envApply e p).exit_status = none := hexit
    rw [runPolls, markerCount, List.countP_cons]
    cases hev : e.exitEvent with
    | some r =>
      have hflag : ((envApply e p).child_status.isSome
          && (envApply e p).exit_status.isNone) = true := by
        simp [hc1, he1, hev]
      have hrest : ((envApply e p).poll.2).exit_status = some r := by
        rw [poll_snd_exit_of_none _ he1, hc1, hev]
      have h0 := markerCount_of_exited es ((envApply e p).poll.2)
        (by simp [hrest])
      rw [markerCount] at h0
      simp [hflag, h0, List.any_cons, hev]
    | none =>
      have hflag : ((envApply e p).child_status.isSome
          && (envApply e p).exit_status.isNone) = false := by
        simp [hc1, hev]
      have hrest_exit : ((envApply e p).poll.2).exit_status = none := by
        rw [poll_snd_exit_of_none _ he1, hc1, hev]
      have hrest_child : ((envApply e p).poll.2).child_status = none := by
        rw [poll_snd_child, hc1, hev]
      have ih := markerCount_run es ((envApply e p).poll.2) hrest_exit hrest_child
      rw [markerCount] at ih
      simp [hflag, ih, List.any_cons, hev]

/-- C2: a poll drains the queued chunks in order into one buffer, stopping
once the accumulated size exceeds 16384 bytes (the rest stays queued), and the
`[process exited with N]` marker is appended exactly when the poll observes an
exit not yet recorded; across a whole run of repeated polls the marker appears
exactly once if the child ever exits, and never otherwise. -/
theorem C2_poll_drain_and_marker_once (p : PtyProcess) (steps : List EnvStep)
    (hexit : p.exit_status = none) (hchild : p.child_status = none) :
    (∀ q : PtyProcess, ∃ k,
      q.poll.1 = (q.queue.take k).flatten ++
        (match q.child_status with
         | some r => if q.exit_status = none then exitMarker r else []
         | none => [])
      ∧ q.poll.2.queue = q.queue.drop k
      ∧ (k < q.queue.length → ((q.queue.take k).flatten).length > 16384)
      ∧ (((q.queue.take k).dropLast).flatten).length ≤ 16384
      ∧ q.poll.2.exit_status =
          (match q.child_status with
           | some r => if q.exit_status = none then some r else q.exit_status
           | none => q.exit_status))
    ∧ markerCount (runPolls p steps)
        = (if steps.any (fun s => s.exitEvent.isSome) then 1 else 0) := by
  constructor
  · intro q
    obtain ⟨k, h1, h2, h3, h4, _, h6⟩ := poll_spec q
    exact ⟨k, h1, h2, h3, h4, h6⟩
  · exact markerCount_run steps p hexit hchild

theorem C2_poll_drain_and_marker_once_witness :
    markerCount (runPolls PtyProcess.fresh
        [⟨[[104, 105]], none⟩, ⟨[], some 0⟩, ⟨[], none⟩]) = 1 := by
  have h := C2_poll_drain_and_marker_once PtyProcess.fresh
    [⟨[[104, 105]], none⟩, ⟨[], some 0⟩, ⟨[], none⟩] rfl rfl
  rw [h.2]
  decide

/-! ## PtyProcess teardown: `kill` and `Drop for PtyProcess` -/

/-- The externally visible teardown actions of `Drop for PtyProcess`. -/
inductive TeardownAct where
  | closeWriter : TeardownAct
  | killChild : TeardownAct
  | waitChild : TeardownAct
  | joinReader : TeardownAct
deriving DecidableEq, Repr

/-- `PtyProcess::kill`: `try_wait` returning `Ok(Some(_))` short-circuits to
`Ok(())` with no kill; `Ok(None)` issues the kill.  Returns the actions taken
and the `io::Result`. -/
def PtyProcess.kill (p : PtyProcess) : List TeardownAct × Except Unit Unit :=
  match p.child_status with
  | some _ => ([], Except.ok ())
  | none => ([TeardownAct.killChild], Except.ok ())

/-- `Drop for PtyProcess`, as the sequence of teardown actions it performs:
`take_writer` + `drop(writer)` closes the write side, then `self.kill()`,
then `self.child.wait()`.  `drop(&self.pty.master)` and
`drop(&self.child_handle)` drop shared references and are no-ops; the
`JoinHandle` field is dropped afterwards without being joined (the join is
commented out in the source), which detaches the reader thread. -/
def dropActions (p : PtyProcess) : List TeardownAct :=
  [TeardownAct.closeWriter] ++ (PtyProcess.kill p).1 ++ [TeardownAct.waitChild]

/-- C3 counterexample: the claim says teardown ends by joining the reader
thread, but for a process whose child is still running the drop sequence is
close-writer, kill, wait and contains no join at all. -/
theorem C3_counterexample :
    dropActions { queue := [], child_status := none, exit_status := none }
      = [TeardownAct.closeWriter, TeardownAct.killChild, TeardownAct.waitChild]
    ∧ TeardownAct.joinReader ∉
        dropActions { queue := [], child_status := none, exit_status := none } := by
  constructor
  · rfl
  · decide

/-- C3 (amended): teardown performs, in this order, close the pty write side,
kill the child if `try_wait` says it still runs, then wait/reap; the reader
thread is never joined (its handle is dropped, detaching it); and kill on an
already-exited child is a no-op returning `Ok(())`. -/
theorem C3_teardown_order (p : PtyProcess) :
    ((p.child_status = none → dropActions p
        = [TeardownAct.closeWriter, TeardownAct.killChild, TeardownAct.waitChild])
    ∧ (∀ r, p.child_status = some r → dropActions p
        = [TeardownAct.closeWriter, TeardownAct.waitChild]))
    ∧ TeardownAct.joinReader ∉ dropActions p
    ∧ (∀ r, p.child_status = some r → PtyProcess.kill p = ([], Except.ok ())) := by
  refine ⟨⟨fun h => ?_, fun r h => ?_⟩, ?_, fun r h => ?_⟩
  · simp [dropActions, PtyProcess.kill, h]
  · simp [dropActions, PtyProcess.kill, h]
  · cases hc : p.child_status <;> simp [dropActions, PtyProcess.kill, hc]
  · simp [PtyProcess.kill, h]

theorem C3_teardown_order_witness :
    dropActions { queue := [], child_status := some 0, exit_status := none }
      = [TeardownAct.closeWriter, TeardownAct.waitChild]
    ∧ PtyProcess.kill { queue := [], child_status := some 0, exit_status := none }
      = ([], Except.ok ()) := by
  have h := C3_teardown_order
    { queue := [], child_status := some 0, exit_status := none }
  exact ⟨h.1.2 0 rfl, h.2.2 0 rfl⟩

/-! ## PtyTerminal (src/main.rs lines 421-527) -/

/-- Observable state of the external `wezterm_term::Terminal` screen: retained
row count (`scrollback_rows`, includes the visible rows) and the visible
viewport height (`physical_rows`), plus the current size for `resize_soft`. -/
structure TermScreen where
  scrollback_rows : Nat
  physical_rows : Nat
  cols : Nat
deriving DecidableEq, Repr

/-- `PtyTerminal { terminal, pty_process, scroll_offset }`. -/
structure PtyTerminal where
  term : TermScreen
  pty_process : PtyProcess
  scroll_offset : Int
deriving DecidableEq, Repr

/-- `PtyTerminal::new`: fresh emulator sized to the dimension (a new screen
retains exactly its visible rows), `scroll_offset = 0`. -/
def PtyTerminal.new (pp : PtyProcess) (dimension : Nat × Nat) : PtyTerminal :=
  { term := { scrollback_rows := dimension.2, physical_rows := dimension.2,
              cols := dimension.1 },
    pty_process := pp, scroll_offset := 0 }

/-- `PtyTerminal::scroll_up`: decrement unless already at
`-(scrollback_rows - physical_rows)` (the `usize` subtraction, then cast). -/
def PtyTerminal.scroll_up (t : PtyTerminal) : PtyTerminal :=
  if t.scroll_offset >
      -((t.term.scrollback_rows - t.term.physical_rows : Nat) : Int) then
    { t with scroll_offset := t.scroll_offset - 1 }
  else t

/-- `PtyTerminal::scroll_down`: increment while negative. -/
def PtyTerminal.scroll_down (t : PtyTerminal) : PtyTerminal :=
  if t.scroll_offset < 0 then { t with scroll_offset := t.scroll_offset + 1 }
  else t

/-- `PtyTerminal::reset_scroll`. -/
def PtyTerminal.reset_scroll (t : PtyTerminal) : PtyTerminal :=
  { t with scroll_offset := 0 }

theorem scroll_up_term (t : PtyTerminal) : (t.scroll_up).term = t.term := by
  rw [PtyTerminal.scroll_up]
  split <;> rfl

theorem scroll_down_term (t : PtyTerminal) : (t.scroll_down).term = t.term := by
  rw [PtyTerminal.scroll_down]
  split <;> rfl

theorem scroll_up_iter_offset (t : PtyTerminal) : ∀ n : Nat,
    -((t.term.scrollback_rows - t.term.physical_rows : Nat) : Int)
        ≤ t.scroll_offset - n →
    (PtyTerminal.scroll_up^[n] t).scroll_offset = t.scroll_offset - n
    ∧ (PtyTerminal.scroll_up^[n] t).term = t.term := by
  intro n
  induction n generalizing t with
  | zero => simp
  | succ n ih =>
    intro h
    rw [Function.iterate_succ_apply]
    have hstep : t.scroll_offset >
        -((t.term.scrollback_rows - t.term.physical_rows : Nat) : Int) := by
      have hn : (0 : Int) < (n : Int) + 1 := by positivity
      omega
    have hup : (t.scroll_up).scroll_offset = t.scroll_offset - 1 := by
      rw [PtyTerminal.scroll_up, if_pos hstep]
    have hterm := scroll_up_term t
    have := ih t.scroll_up (by rw [hup, hterm]; push_cast at h ⊢; omega)
    rw [this.1, this.2, hup, hterm]
    refine ⟨by push_cast; ring, rfl⟩

theorem scroll_down_iter_offset (t : PtyTerminal) : ∀ n : Nat,
    t.scroll_offset + n ≤ 0 →
    (PtyTerminal.scroll_down^[n] t).scroll_offset = t.scroll_offset + n
    ∧ (PtyTerminal.scroll_down^[n] t).term = t.term := by
  intro n
  induction n generalizing t with
  | zero => simp
  | succ n ih =>
    intro h
    rw [Function.iterate_succ_apply]
    have hstep : t.scroll_offset < 0 := by
      have hn : (0 : Int) ≤ (n : Int) := by positivity
      omega
    have hdown : (t.scroll_down).scroll_offset = t.scroll_offset + 1 := by
      rw [PtyTerminal.scroll_down, if_pos hstep]
    have hterm := scroll_down_term t
    have := ih t.scroll_down (by rw [hdown]; push_cast at h ⊢; omega)
    rw [this.1, hdown]
    refine ⟨by push_cast; ring, (this.2.trans hterm)⟩

/-- C4: `scroll_offset` stays non-positive (`new` starts at 0, `scroll_up`
and `scroll_down` preserve it, `reset_scroll` restores 0); `scroll_up`
decrements but never below `-(scrollback_rows - physical_rows)`;
`scroll_down` increments but never above 0; and n ups followed by n downs
restore the prior offset whenever the scrollback boundary is not hit. -/
theorem C4_scroll_algebra (t : PtyTerminal) (pp : PtyProcess)
    (dim : Nat × Nat) (n : Nat)
    (hnp : t.scroll_offset ≤ 0)
    (hnoclamp :
      -((t.term.scrollback_rows - t.term.physical_rows : Nat) : Int)
        ≤ t.scroll_offset - n) :
    (PtyTerminal.new pp dim).scroll_offset = 0
    ∧ (t.scroll_up).scroll_offset ≤ 0
    ∧ (t.scroll_down).scroll_offset ≤ 0
    ∧ (t.reset_scroll).scroll_offset = 0
    ∧ (-((t.term.scrollback_rows - t.term.physical_rows : Nat) : Int)
          ≤ t.scroll_offset →
        -((t.term.scrollback_rows - t.term.physical_rows : Nat) : Int)
          ≤ (t.scroll_up).scroll_offset)
    ∧ ((t.scroll_up).scroll_offset = t.scroll_offset
        ∨ (t.scroll_up).scroll_offset = t.scroll_offset - 1)
    ∧ ((t.scroll_down).scroll_offset = t.scroll_offset
        ∨ (t.scroll_down).scroll_offset = t.scroll_offset + 1)
    ∧ (PtyTerminal.scroll_down^[n] (PtyTerminal.scroll_up^[n] t)).scroll_offset
        = t.scroll_offset := by
  refine ⟨rfl, ?_, ?_, rfl, ?_, ?_, ?_, ?_⟩
  · by_cases hlt : t.scroll_offset >
        -((t.term.scrollback_rows - t.term.physical_rows : Nat) : Int)
    · rw [PtyTerminal.scroll_up, if_pos hlt]
      show t.scroll_offset - 1 ≤ 0
      omega
    · rw [PtyTerminal.scroll_up, if_neg hlt]
      exact hnp
  · by_cases hlt : t.scroll_offset < 0
    · rw [PtyTerminal.scroll_down, if_pos hlt]
      show t.scroll_offset + 1 ≤ 0
      omega
    · rw [PtyTerminal.scroll_down, if_neg hlt]
      exact hnp
  · intro hbd
    by_cases hlt : t.scroll_offset >
        -((t.term.scrollback_rows - t.term.physical_rows : Nat) : Int)
    · rw [PtyTerminal.scroll_up, if_pos hlt]
      show -((t.term.scrollback_rows - t.term.physical_rows : Nat) : Int)
          ≤ t.scroll_offset - 1
      omega
    · rw [PtyTerminal.scroll_up, if_neg hlt]
      exact hbd
  · by_cases hlt : t.scroll_offset >
        -((t.term.scrollback_rows - t.term.physical_rows : Nat) : Int)
    · rw [PtyTerminal.scroll_up, if_pos hlt]
      right
      rfl
    · rw [PtyTerminal.scroll_up, if_neg hlt]
      left
      rfl
  · by_cases hlt : t.scroll_offset < 0
    · rw [PtyTerminal.scroll_down, if_pos hlt]
      right
      rfl
    · rw [PtyTerminal.scroll_down, if_neg hlt]
      left
      rfl
  · obtain ⟨hup, hupterm⟩ := scroll_up_iter_offset t n hnoclamp
    have hdown := scroll_down_iter_offset (PtyTerminal.scroll_up^[n] t) n
      (by rw [hup]; omega)
    rw [hdown.1, hup]
    ring

theorem C4_scroll_algebra_witness :
    (PtyTerminal.scroll_down^[2] (PtyTerminal.scroll_up^[2]
        ({ term := { scrollback_rows := 100, physical_rows := 24, cols := 80 },
           pty_process := PtyProcess.fresh,
           scroll_offset := -1 } : PtyTerminal))).scroll_offset = -1 := by
  have h := C4_scroll_algebra
    { term := { scrollback_rows := 100, physical_rows := 24, cols := 80 },
      pty_process := PtyProcess.fresh, scroll_offset := -1 }
    PtyProcess.fresh (80, 24) 2 (by norm_num) (by norm_num)
  exact h.2.2.2.2.2.2.2

/-! ## UiWindow (src/main.rs lines 286-405) -/

/-- The effectful `PtyProcess::new(pty_system, dim, argv)` call, abstracted as
a spawn environment: `none` models a pty-allocation/spawn failure. -/
abbrev SpawnEnv := RStr → Option PtyProcess

/-- `UiWindow { process_group, active_process_index, pty_terminal }`. -/
structure UiWindow where
  process_group : ProcessGroup
  active_process_index : Nat
  pty_terminal : Option PtyTerminal
deriving DecidableEq, Repr

/-- `UiWindow::new`. -/
def UiWindow.new (g : ProcessGroup) : UiWindow :=
  { process_group := g, active_process_index := 0, pty_terminal := none }

/-- `Process::label()`: `Null` displays as `"disable"`. -/
def Process.label : Process → RStr
  | Process.null => "disable".toList
  | Process.command l _ => l

/-- `UiWindow::get_active`: the active member unless it is `Null` or the
index is out of range. -/
def UiWindow.get_active (w : UiWindow) : Option Process :=
  match w.process_group.members.get? w.active_process_index with
  | some Process.null => none
  | some p => some p
  | none => none

/-- `UiWindow::set_active`: no-op when `index` is out of range; otherwise the
existing pane is dropped (`pty_terminal = None`) before the index is updated
and, for a `Command` member whose spawn succeeds, a fresh pane is built. -/
def UiWindow.set_active (env : SpawnEnv) (dimension : Nat × Nat)
    (w : UiWindow) (index : Nat) : UiWindow :=
  match w.process_group.members.get? index with
  | none => w
  | some process =>
    let w1 : UiWindow := { w with pty_terminal := none,
                                  active_process_index := index }
    match process with
    | Process.null => w1
    | Process.command _ argv =>
      match env argv with
      | some pp => { w1 with pty_terminal := some (PtyTerminal.new pp dimension) }
      | none => w1

/-- `UiWindow::scroll_up`. -/
def UiWindow.scroll_up (w : UiWindow) : UiWindow :=
  { w with pty_terminal := w.pty_terminal.map PtyTerminal.scroll_up }

/-- `UiWindow::scroll_down`. -/
def UiWindow.scroll_down (w : UiWindow) : UiWindow :=
  { w with pty_terminal := w.pty_terminal.map PtyTerminal.scroll_down }

/-- `UiWindow::reset_scroll`. -/
def UiWindow.reset_scroll (w : UiWindow) : UiWindow :=
  { w with pty_terminal := w.pty_terminal.map PtyTerminal.reset_scroll }

/-- Number of live process sessions a window holds. -/
def UiWindow.sessionCount (w : UiWindow) : Nat :=
  match w.pty_terminal with
  | some _ => 1
  | none => 0

/-- The operations a `UiWindow` is driven by after construction. -/
inductive WinOp where
  | setActive (index : Nat) : WinOp
  | scrollUp : WinOp
  | scrollDown : WinOp
  | resetScroll : WinOp

/-- Apply one operation. -/
def UiWindow.applyOp (env : SpawnEnv) (dimension : Nat × Nat)
    (w : UiWindow) : WinOp → UiWindow
  | WinOp.setActive i => w.set_active env dimension i
  | WinOp.scrollUp => w.scroll_up
  | WinOp.scrollDown => w.scroll_down
  | WinOp.resetScroll => w.reset_scroll

/-- The window invariant of C1: the active index addresses a member, and a
`Null` active member implies no pane. -/
def WindowInv (w : UiWindow) : Prop :=
  w.active_process_index < w.process_group.members.length
  ∧ (w.process_group.members.get? w.active_process_index = some Process.null →
      w.pty_terminal = none)

theorem set_active_out_of_range (env : SpawnEnv) (dim : Nat × Nat)
    (w : UiWindow) (i : Nat) (h : w.process_group.members.length ≤ i) :
    w.set_active env dim i = w := by
  have : w.process_group.members.get? i = none := List.get?_eq_none.mpr h
  rw [UiWindow.set_active, this]

theorem set_active_members (env : SpawnEnv) (dim : Nat × Nat)
    (w : UiWindow) (i : Nat) :
    (w.set_active env dim i).process_group = w.process_group := by
  rw [UiWindow.set_active]
  cases w.process_group.members.get? i with
  | none => rfl
  | some p =>
    cases p with
    | null => rfl
    | command l a => cases h : env a <;> simp [h]

/-- The pane produced by selecting member `p`: none for `Null` or on spawn
failure, a fresh `PtyTerminal` otherwise. -/
def spawnResult (env : SpawnEnv) (dim : Nat × Nat) : Process → Option PtyTerminal
  | Process.null => none
  | Process.command _ argv => (env argv).map fun pp => PtyTerminal.new pp dim

theorem set_active_in_range (env : SpawnEnv) (dim : Nat × Nat)
    (w : UiWindow) (i : Nat) (p : Process)
    (h : w.process_group.members.get? i = some p) :
    (w.set_active env dim i).active_process_index = i
    ∧ (w.set_active env dim i).pty_terminal = spawnResult env dim p := by
  rw [UiWindow.set_active, h]
  cases p with
  | null => exact ⟨rfl, rfl⟩
  | command l a => cases he : env a <;> simp [he, spawnResult]

theorem applyOp_inv (env : SpawnEnv) (dim : Nat × Nat) (w : UiWindow)
    (op : WinOp) (hw : WindowInv w) : WindowInv (w.applyOp env dim op) := by
  cases op with
  | setActive i =>
    cases h : w.process_group.members.get? i with
    | none =>
      have : w.set_active env dim i = w := by rw [UiWindow.set_active, h]
      rw [UiWindow.applyOp, this]
      exact hw
    | some p =>
      obtain ⟨h1, h2⟩ := set_active_in_range env dim w i p h
      have hm := set_active_members env dim w i
      constructor
      · rw [UiWindow.applyOp, h1, hm]
        exact List.get?_eq_some.mp h |>.1
      · intro hn
        rw [UiWindow.applyOp] at hn ⊢
        rw [h1, hm, h] at hn
        rw [h2]
        cases p with
        | null => rfl
        | command l a => exact absurd (Option.some.inj hn) (by simp)
  | scrollUp =>
    refine ⟨hw.1, fun hn => ?_⟩
    have := hw.2 hn
    rw [UiWindow.applyOp, UiWindow.scroll_up, this]
    rfl
  | scrollDown =>
    refine ⟨hw.1, fun hn => ?_⟩
    have := hw.2 hn
    rw [UiWindow.applyOp, UiWindow.scroll_down, this]
    rfl
  | resetScroll =>
    refine ⟨hw.1, fun hn => ?_⟩
    have := hw.2 hn
    rw [UiWindow.applyOp, UiWindow.reset_scroll, this]
    rfl

/-- C1: `set_active` with an out-of-range index is a no-op; a window never
holds more than one live session, and re-selecting the current index (when it
is a `Command` whose spawn succeeds) yields exactly one fresh session,
regardless of any pane held before; the invariant "active index valid, and a
`Disabled` (index-0) active member means no pane" holds initially and is
preserved by every operation sequence. -/
theorem C1_set_active (env : SpawnEnv) (dim : Nat × Nat) (w : UiWindow)
    (i : Nat) (g : ProcessGroup) (ops : List WinOp)
    (l argv : RStr) (pp : PtyProcess) :
    (w.process_group.members.length ≤ i → w.set_active env dim i = w)
    ∧ (w.set_active env dim i).sessionCount ≤ 1
    ∧ (w.process_group.members.get? w.active_process_index
          = some (Process.command l argv) → env argv = some pp →
        (w.set_active env dim w.active_process_index).pty_terminal
          = some (PtyTerminal.new pp dim)
        ∧ (w.set_active env dim w.active_process_index).sessionCount = 1)
    ∧ (g.members ≠ [] → WindowInv (UiWindow.new g))
    ∧ (WindowInv w → WindowInv (ops.foldl (UiWindow.applyOp env dim) w))
    ∧ (WindowInv w → w.process_group.members.get? 0 = some Process.null →
        w.active_process_index = 0 → w.pty_terminal = none) := by
  refine ⟨fun h => set_active_out_of_range env dim w i h, ?_, ?_, ?_, ?_, ?_⟩
  · cases hpt : (w.set_active env dim i).pty_terminal <;>
      simp [UiWindow.sessionCount, hpt]
  · intro hm hs
    obtain ⟨_, h2⟩ := set_active_in_range env dim w w.active_process_index
      (Process.command l argv) hm
    have hp : (w.set_active env dim w.active_process_index).pty_terminal
        = some (PtyTerminal.new pp dim) := by
      rw [h2]
      simp [spawnResult, hs]
    exact ⟨hp, by simp [UiWindow.sessionCount, hp]⟩
  · intro hne
    exact ⟨List.length_pos.mpr hne, fun _ => rfl⟩
  · intro hw
    induction ops generalizing w with
    | nil => exact hw
    | cons op ops ih =>
      exact ih (w.applyOp env dim op) (applyOp_inv env dim w op hw)
  · intro hw h0 hi
    exact hw.2 (hi ▸ h0)

theorem C1_set_active_witness :
    (UiWindow.set_active (fun _ => some PtyProcess.fresh) (80, 24)
      { process_group := ⟨"web".toList,
          [Process.null, Process.command "default".toList "echo hi".toList]⟩,
        active_process_index := 1,
        pty_terminal := some (PtyTerminal.new PtyProcess.fresh (80, 24)) }
      1).sessionCount = 1
    ∧ WindowInv (List.foldl
        (UiWindow.applyOp (fun _ => some PtyProcess.fresh) (80, 24))
        { process_group := ⟨"web".toList,
            [Process.null, Process.command "default".toList "echo hi".toList]⟩,
          active_process_index := 1,
          pty_terminal := some (PtyTerminal.new PtyProcess.fresh (80, 24)) }
        [WinOp.setActive 1, WinOp.scrollUp, WinOp.setActive 0]) := by
  have h := C1_set_active (fun _ => some PtyProcess.fresh) (80, 24)
    { process_group := ⟨"web".toList,
        [Process.null, Process.command "default".toList "echo hi".toList]⟩,
      active_process_index := 1,
      pty_terminal := some (PtyTerminal.new PtyProcess.fresh (80, 24)) }
    1 ⟨"web".toList, [Process.null]⟩
    [WinOp.setActive 1, WinOp.scrollUp, WinOp.setActive 0]
    "default".toList "echo hi".toList PtyProcess.fresh
  refine ⟨(h.2.2.1 (by decide) rfl).2, h.2.2.2.2.1 ⟨by decide, fun hn => ?_⟩⟩
  exact absurd hn (by decide)

/-! ## UiState (src/main.rs lines 109-284) and the event loop (main) -/

/-- `UiState`: the compositor state.  The termwiz `Surface` is represented by
its dimensions (the only part the embedded logic reads). -/
structure UiState where
  procfile_hash : RStr
  focused_window_index : Nat
  windows : List UiWindow
  surface_dim : Nat × Nat
  min_window_height : Nat
  repaint : Bool

/-- `UiState::new`. -/
def UiState.new (hash : RStr) (procfile : Procfile) (dimension : Nat × Nat) :
    UiState :=
  { procfile_hash := hash, focused_window_index := 0,
    windows := procfile.map UiWindow.new, surface_dim := dimension,
    min_window_height := 2, repaint := true }

/-- `UiState::previous_window`: reset the focused window's scroll, then move
focus down by one, saturating at 0, and request a repaint. -/
def UiState.previous_window (st : UiState) : UiState :=
  let ws := (match st.windows.get? st.focused_window_index with
    | some w => st.windows.set st.focused_window_index w.reset_scroll
    | none => st.windows)
  { st with
    windows := ws,
    focused_window_index :=
      if st.focused_window_index > 0 then st.focused_window_index - 1 else 0,
    repaint := true }

/-- `UiState::next_window`: reset the focused window's scroll, then move focus
up by one, saturating at the last index, and request a repaint. -/
def UiState.next_window (st : UiState) : UiState :=
  let ws := (match st.windows.get? st.focused_window_index with
    | some w => st.windows.set st.focused_window_index w.reset_scroll
    | none => st.windows)
  { st with
    windows := ws,
    focused_window_index :=
      if st.focused_window_index < st.windows.length - 1 then
        st.focused_window_index + 1
      else st.focused_window_index,
    repaint := true }

/-- `UiState::select_process`: forward to the focused window's `set_active`
with the surface dimensions, and request a repaint. -/
def UiState.select_process (env : SpawnEnv) (st : UiState) (index : Nat) :
    UiState :=
  let ws := (match st.windows.get? st.focused_window_index with
    | some w => st.windows.set st.focused_window_index
        (w.set_active env st.surface_dim index)
    | none => st.windows)
  { st with windows := ws, repaint := true }

/-- `UiState::scroll_up` (forwards to the focused window). -/
def UiState.scroll_up (st : UiState) : UiState :=
  let ws := (match st.windows.get? st.focused_window_index with
    | some w => st.windows.set st.focused_window_index w.scroll_up
    | none => st.windows)
  { st with windows := ws, repaint := true }

/-- `UiState::scroll_down` (forwards to the focused window). -/
def UiState.scroll_down (st : UiState) : UiState :=
  let ws := (match st.windows.get? st.focused_window_index with
    | some w => st.windows.set st.focused_window_index w.scroll_down
    | none => st.windows)
  { st with windows := ws, repaint := true }

/-- C7: with a valid focused index, `next_window`/`previous_window` move the
focus by one with saturating clamping, keep it in range, reset the scroll of
the window that held focus (so a scrolled pane reopens at the live tail), and
touch no other window. -/
theorem C7_focus_moves (st : UiState)
    (h : st.focused_window_index < st.windows.length) :
    (st.next_window).focused_window_index
        = min (st.focused_window_index + 1) (st.windows.length - 1)
    ∧ (st.previous_window).focused_window_index = st.focused_window_index - 1
    ∧ (st.next_window).focused_window_index < st.windows.length
    ∧ (st.previous_window).focused_window_index < st.windows.length
    ∧ (st.next_window).windows.get? st.focused_window_index
        = (st.windows.get? st.focused_window_index).map UiWindow.reset_scroll
    ∧ (st.previous_window).windows.get? st.focused_window_index
        = (st.windows.get? st.focused_window_index).map UiWindow.reset_scroll
    ∧ (∀ j, j ≠ st.focused_window_index →
        (st.next_window).windows.get? j = st.windows.get? j
        ∧ (st.previous_window).windows.get? j = st.windows.get? j)
    ∧ (∀ w t, (st.next_window).windows.get? st.focused_window_index = some w →
        w.pty_terminal = some t → t.scroll_offset = 0) := by
  obtain ⟨w0, hw0⟩ : ∃ w, st.windows.get? st.focused_window_index = some w :=
    ⟨_, List.get?_eq_get h⟩
  have hw0g : st.windows[st.focused_window_index]? = some w0 := by
    simpa [← List.get?_eq_getElem?] using hw0
  have hnextw : (st.next_window).windows
      = st.windows.set st.focused_window_index w0.reset_scroll := by
    simp [UiState.next_window, hw0g]
  have hprevw : (st.previous_window).windows
      = st.windows.set st.focused_window_index w0.reset_scroll := by
    simp [UiState.previous_window, hw0g]
  have hnextf : (st.next_window).focused_window_index
      = if st.focused_window_index < st.windows.length - 1 then
          st.focused_window_index + 1
        else st.focused_window_index := by
    simp [UiState.next_window]
  have hprevf : (st.previous_window).focused_window_index
      = if st.focused_window_index > 0 then st.focused_window_index - 1
        else 0 := by
    simp [UiState.previous_window]
  have hset : ∀ j, j ≠ st.focused_window_index →
      (st.windows.set st.focused_window_index w0.reset_scroll).get? j
        = st.windows.get? j :=
    fun j hj => List.get?_set_ne _ _ (Ne.symm hj)
  have hseteq :
      (st.windows.set st.focused_window_index w0.reset_scroll).get?
          st.focused_window_index = some w0.reset_scroll :=
    List.get?_set_eq_of_lt _ h
  refine ⟨?_, ?_, ?_, ?_, ?_, ?_, ?_, ?_⟩
  · rw [hnextf]
    by_cases hlt : st.focused_window_index < st.windows.length - 1
    · rw [if_pos hlt]
      omega
    · rw [if_neg hlt]
      omega
  · rw [hprevf]
    by_cases hlt : st.focused_window_index > 0
    · rw [if_pos hlt]
    · rw [if_neg hlt]
      omega
  · rw [hnextf]
    by_cases hlt : st.focused_window_index < st.windows.length - 1
    · rw [if_pos hlt]
      omega
    · rw [if_neg hlt]
      omega
  · rw [hprevf]
    by_cases hlt : st.focused_window_index > 0
    · rw [if_pos hlt]
      omega
    · rw [if_neg hlt]
      omega
  · rw [hnextw, hw0, hseteq]
    rfl
  · rw [hprevw, hw0, hseteq]
    rfl
  · intro j hj
    exact ⟨by rw [hnextw]; exact hset j hj, by rw [hprevw]; exact hset j hj⟩
  · intro w t hwin hpt
    rw [hnextw, hseteq] at hwin
    have hww : w = w0.reset_scroll := (Option.some.inj hwin).symm
    rw [hww, UiWindow.reset_scroll] at hpt
    cases hw : w0.pty_terminal with
    | none => rw [hw] at hpt; exact absurd hpt (by simp)
    | some t0 =>
      rw [hw] at hpt
      have : t = t0.reset_scroll := (Option.some.inj hpt).symm
      rw [this]
      rfl

theorem C7_focus_moves_witness :
    (UiState.next_window
        (UiState.new "h".toList [⟨"a".toList, [Process.null]⟩,
          ⟨"b".toList, [Process.null]⟩] (80, 24))).focused_window_index = 1 := by
  have h := C7_focus_moves
    (UiState.new "h".toList [⟨"a".toList, [Process.null]⟩,
      ⟨"b".toList, [Process.null]⟩] (80, 24)) (by decide)
  rw [h.1]
  decide

/-! ## render_to_screen layout and panic analysis (C9) -/

/-- Rust unchecked `usize` subtraction: `none` models the underflow panic. -/
def checkedSub (a b : Nat) : Option Nat :=
  if b ≤ a then some (a - b) else none

/-- The per-window walk of `render_to_screen`'s fold: window `i` gets height
`fh` when focused, `unfh` otherwise, and `UiWindow::render` computes `h - 1`
(for `resize_soft`) only when the window holds a pane — `h = 0` then
underflows.  Returns `true` when some window panics. -/
def windowsPanic (focused fh unfh : Nat) : Nat → List UiWindow → Bool
  | _, [] => false
  | i, w :: ws =>
    (w.pty_terminal.isSome && (if i = focused then fh else unfh) = 0)
    || windowsPanic focused fh unfh (i + 1) ws

/-- The layout arithmetic of `render_to_screen` (src/main.rs lines 176-207):
`unfocused_height = len.saturating_sub(1) * (1 + min_window_height)`, the
unchecked `focused_height = height - unfocused_height`, then each window's
render.  `true` = some unchecked subtraction underflows (a panic). -/
def render_layout_panics (st : UiState) (height : Nat) : Bool :=
  match checkedSub height ((st.windows.length - 1) * (1 + st.min_window_height)) with
  | none => true
  | some fh =>
    windowsPanic st.focused_window_index fh (1 + st.min_window_height) 0 st.windows

theorem windowsPanic_eq_false : ∀ (ws : List UiWindow) (focused fh unfh i : Nat),
    windowsPanic focused fh unfh i ws = false ↔
      ∀ j w, ws.get? j = some w → w.pty_terminal.isSome →
        (if i + j = focused then fh else unfh) ≠ 0
  | [], focused, fh, unfh, i => by simp [windowsPanic]
  | w :: ws, focused, fh, unfh, i => by
    rw [windowsPanic]
    rw [Bool.or_eq_false_iff]
    rw [windowsPanic_eq_false ws focused fh unfh (i + 1)]
    constructor
    · rintro ⟨h1, h2⟩ j x hj hx
      cases j with
      | zero =>
        rw [List.get?_cons_zero] at hj
        have hxw : w = x := Option.some.inj hj
        rw [← hxw] at hx
        intro h0
        rw [Nat.add_zero] at h0
        rw [hx] at h1
        simp at h1
        exact h1 h0
      | succ j =>
        have hidx : i + 1 + j = i + (j + 1) := by omega
        have hrec := h2 j x (by simpa using hj) hx
        rw [hidx] at hrec
        exact hrec
    · intro hall
      constructor
      · by_cases hx : w.pty_terminal.isSome
        · have := hall 0 w rfl hx
          rw [Nat.add_zero] at this
          simp [this]
        · simp [Option.isSome] at hx ⊢
          cases hpt : w.pty_terminal with
          | none => simp
          | some t => rw [hpt] at hx; simp at hx
      · intro j x hj hx
        have hidx : i + 1 + j = i + (j + 1) := by omega
        have hrec := hall (j + 1) x (by simpa using hj) hx
        rw [← hidx] at hrec
        exact hrec

/-- C9 counterexample: a single window holding a pane on a screen of height 0
satisfies the claim's bound `height ≥ 3*(n-1) = 0`, yet `UiWindow::render`
computes `h - 1 = 0 - 1` for the pane's `resize_soft` and underflows, so
render panics where the claim says it cannot. -/
theorem C9_counterexample :
    render_layout_panics
      (UiState.mk [] 0
        [UiWindow.mk
          (ProcessGroup.mk "web".toList
            [Process.null, Process.command "default".toList "sleep 1".toList])
          1 (some (PtyTerminal.new PtyProcess.fresh (80, 24)))]
        (80, 24) 2 false)
      0 = true
    ∧ 3 * (1 - 1) ≤ 0 := by
  exact ⟨by decide, by decide⟩

/-- C9 (amended): the focused-height subtraction
`height - (n-1)*(1+min_window_height)` (with `min_window_height = 2`)
underflows exactly when `height < 3*(n-1)`; the full render walk avoids every
underflow iff additionally, when the focused window holds a pane, one more row
is available (`height ≥ 3*(n-1) + 1`), because `UiWindow::render` computes
`h - 1` on the focused height. -/
theorem C9_layout_underflow (st : UiState) (height : Nat)
    (hmin : st.min_window_height = 2)
    (hf : st.focused_window_index < st.windows.length) :
    ((checkedSub height ((st.windows.length - 1) * (1 + st.min_window_height))).isSome
      ↔ 3 * (st.windows.length - 1) ≤ height)
    ∧ (render_layout_panics st height = false ↔
        (3 * (st.windows.length - 1) ≤ height
        ∧ (∀ w, st.windows.get? st.focused_window_index = some w →
            w.pty_terminal.isSome → 3 * (st.windows.length - 1) + 1 ≤ height))) := by
  have hu : (st.windows.length - 1) * (1 + st.min_window_height)
      = 3 * (st.windows.length - 1) := by
    rw [hmin]
    ring
  constructor
  · rw [hu, checkedSub]
    by_cases hle : 3 * (st.windows.length - 1) ≤ height <;> simp [hle]
  · rw [render_layout_panics, checkedSub, hu]
    by_cases hle : 3 * (st.windows.length - 1) ≤ height
    · rw [if_pos hle]
      simp only [hle, true_and]
      rw [windowsPanic_eq_false st.windows st.focused_window_index _ _ 0]
      constructor
      · intro hall w hw hpt
        have := hall st.focused_window_index w hw hpt
        rw [if_pos (Nat.zero_add _)] at this
        omega
      · intro hbound j w hj hpt
        by_cases hjf : 0 + j = st.focused_window_index
        · rw [if_pos hjf]
          have hj0 : st.windows.get? st.focused_window_index = some w := by
            rw [← hjf, Nat.zero_add]
            exact hj
          have := hbound w hj0 hpt
          omega
        · rw [if_neg hjf, hmin]
          omega
    · rw [if_neg hle]
      simp only [hle, false_and]
      constructor
      · intro hc
        exact absurd hc (by simp)
      · intro hc
        exact absurd hc (by simp)

theorem C9_layout_underflow_witness :
    render_layout_panics
      (UiState.mk [] 0
        [UiWindow.mk (ProcessGroup.mk "web".toList [Process.null]) 0 none]
        (80, 24) 2 false)
      0 = false := by
  have h := C9_layout_underflow
    (UiState.mk [] 0
      [UiWindow.mk (ProcessGroup.mk "web".toList [Process.null]) 0 none]
      (80, 24) 2 false)
    0 rfl (by decide)
  rw [h.2]
  refine ⟨by decide, fun w hw hpt => ?_⟩
  have hww : UiWindow.mk (ProcessGroup.mk "web".toList [Process.null]) 0 none
      = w := Option.some.inj hw
  rw [← hww] at hpt
  exact absurd hpt (by decide)

/-! ## Event loop and full-screen clears (C8) -/

/-- One input event of the main loop's `poll_input` (src/main.rs 703-760);
`noInput` is `Ok(None)`, `keyOther` any key the `match` ignores.  Escape ends
the loop, so a run is simply a finite event list. -/
inductive LoopEvent where
  | noInput : LoopEvent
  | resized (rows cols : Nat) : LoopEvent
  | keyNext : LoopEvent
  | keyPrev : LoopEvent
  | keySelect (i : Nat) : LoopEvent
  | keyScrollUp : LoopEvent
  | keyScrollDown : LoopEvent
  | keyOther : LoopEvent

/-- The projection of `render_to_screen` onto full-screen clears: it emits
`Change::ClearScreen` exactly when `repaint` is set, and clears the flag; the
off-screen rebuild and cell diff emit cell changes, never a full clear. -/
def render_to_screen_clears (st : UiState) : Nat × UiState :=
  if st.repaint then (1, { st with repaint := false }) else (0, st)

/-- One iteration of the main loop: handle the event (the `Resized` arm adds
a `ClearScreen` directly to the output buffer), then `render_to_screen`.
Returns the new state and the number of full-screen clears emitted. -/
def loopTick (env : SpawnEnv) (st : UiState) (e : LoopEvent) : UiState × Nat :=
  let he : UiState × Nat :=
    (match e with
     | LoopEvent.noInput => (st, 0)
     | LoopEvent.resized _ _ => (st, 1)
     | LoopEvent.keyNext => (st.next_window, 0)
     | LoopEvent.keyPrev => (st.previous_window, 0)
     | LoopEvent.keySelect i => (st.select_process env i, 0)
     | LoopEvent.keyScrollUp => (st.scroll_up, 0)
     | LoopEvent.keyScrollDown => (st.scroll_down, 0)
     | LoopEvent.keyOther => (st, 0))
  let rc := render_to_screen_clears he.1
  (rc.2, he.2 + rc.1)

/-- Total number of full-screen clears over a run of the loop. -/
def runLoopClears (env : SpawnEnv) (st : UiState) : List LoopEvent → Nat
  | [] => 0
  | e :: es =>
    let r := loopTick env st e
    r.2 + runLoopClears env r.1 es

/-- The key events the loop handles by mutating the compositor state. -/
def handledKey : LoopEvent → Bool
  | LoopEvent.keyNext => true
  | LoopEvent.keyPrev => true
  | LoopEvent.keySelect _ => true
  | LoopEvent.keyScrollUp => true
  | LoopEvent.keyScrollDown => true
  | _ => false

/-- Resize events in a run. -/
def isResized : LoopEvent → Bool
  | LoopEvent.resized _ _ => true
  | _ => false

/-- Clears per event once the initial repaint has been consumed: one for a
resize, one for a handled key event, none otherwise. -/
def clearsSteady : List LoopEvent → Nat
  | [] => 0
  | e :: es =>
    (if isResized e then 1 else 0) + (if handledKey e then 1 else 0)
      + clearsSteady es

/-- Clears of a whole run from a freshly constructed state: the first tick
always renders one clear (construction sets `repaint`), plus one more if that
tick is itself a resize; later ticks follow `clearsSteady`. -/
def clearsOfRun : List LoopEvent → Nat
  | [] => 0
  | e :: es => (if isResized e then 1 else 0) + 1 + clearsSteady es

theorem loopTick_clears (env : SpawnEnv) (st : UiState) (e : LoopEvent) :
    (loopTick env st e).2
      = (if isResized e then 1 else 0)
        + (if handledKey e || st.repaint then 1 else 0)
    ∧ (loopTick env st e).1.repaint = false := by
  cases e <;>
    cases hr : st.repaint <;>
      simp [loopTick, render_to_screen_clears, isResized, handledKey, hr,
        UiState.next_window, UiState.previous_window, UiState.select_process,
        UiState.scroll_up, UiState.scroll_down]

theorem runLoopClears_steady : ∀ (es : List LoopEvent) (env : SpawnEnv)
    (st : UiState), st.repaint = false →
    runLoopClears env st es = clearsSteady es
  | [], env, st, _ => rfl
  | e :: es, env, st, h => by
    obtain ⟨h1, h2⟩ := loopTick_clears env st e
    rw [runLoopClears, h1, h,
      runLoopClears_steady es env (loopTick env st e).1 h2, clearsSteady]
    cases hi : isResized e <;> cases hk : handledKey e <;> simp

/-- C8 (amended): from a freshly constructed state (`repaint = true`) the run
emits one clear on the first rendered frame, one per resize event, and one per
handled key event (focus move, member selection, scroll) — every such event
sets `repaint`, forcing a full clear on the frame that follows it; frames
after no event are pure cell diffs. -/
theorem C8_clears_per_event (env : SpawnEnv) (st : UiState)
    (events : List LoopEvent) (h : st.repaint = true) :
    runLoopClears env st events = clearsOfRun events := by
  cases events with
  | nil => rfl
  | cons e es =>
    obtain ⟨h1, h2⟩ := loopTick_clears env st e
    rw [runLoopClears, h1, h,
      runLoopClears_steady es env (loopTick env st e).1 h2, clearsOfRun]
    cases hi : isResized e <;> cases hk : handledKey e <;> simp

/-- C8 counterexample: with no resize events the claim predicts exactly one
clear (the first frame), but a run consisting of one empty tick followed by a
`next` keypress emits two — the key press forces a second full clear. -/
theorem C8_counterexample :
    runLoopClears (fun _ => none)
      (UiState.new [] [ProcessGroup.mk "web".toList [Process.null]] (80, 24))
      [LoopEvent.noInput, LoopEvent.keyNext] = 2
    ∧ (List.countP isResized [LoopEvent.noInput, LoopEvent.keyNext] = 0
        ∧ 2 ≠ 1 + List.countP isResized [LoopEvent.noInput, LoopEvent.keyNext]) := by
  refine ⟨?_, by decide, by decide⟩
  rw [C8_clears_per_event (fun _ => none)
    (UiState.new [] [ProcessGroup.mk "web".toList [Process.null]] (80, 24))
    [LoopEvent.noInput, LoopEvent.keyNext] rfl]
  rfl

theorem C8_clears_per_event_witness :
    runLoopClears (fun _ => none)
      (UiState.new [] [ProcessGroup.mk "web".toList [Process.null]] (80, 24))
      [LoopEvent.noInput, LoopEvent.resized 30 90, LoopEvent.keyScrollUp] = 3 := by
  rw [C8_clears_per_event (fun _ => none)
    (UiState.new [] [ProcessGroup.mk "web".toList [Process.null]] (80, 24))
    [LoopEvent.noInput, LoopEvent.resized 30 90, LoopEvent.keyScrollUp] rfl]
  rfl

/-! ## Session persistence: save_state / load_state (C6) -/

/-- `SavedState { focused_group, active_processes }`; the `BTreeMap` is a
sorted association list with distinct keys. -/
structure SavedState where
  focused_group : RStr
  active_processes : List (RStr × RStr)
deriving DecidableEq, Repr

/-- Lexicographic `<` on Rust strings (`Ord for String`). -/
def strLt : RStr → RStr → Bool
  | [], [] => false
  | [], _ :: _ => true
  | _ :: _, [] => false
  | a :: as, b :: bs => if a < b then true else if b < a then false else strLt as bs

/-- `BTreeMap::insert`: keep keys sorted, overwrite an equal key. -/
def btreeInsert (k v : RStr) : List (RStr × RStr) → List (RStr × RStr)
  | [] => [(k, v)]
  | kv :: rest =>
    if strLt k kv.1 then (k, v) :: kv :: rest
    else if k = kv.1 then (k, v) :: rest
    else kv :: btreeInsert k v rest

/-- The fold building `active_processes` in `save_state`: one
`{title -> label}` entry per window holding an active non-Null member. -/
def saveStep (acc : List (RStr × RStr)) (w : UiWindow) : List (RStr × RStr) :=
  match w.get_active with
  | some p => btreeInsert w.process_group.title p.label acc
  | none => acc

/-- `UiState::save_state` (the filesystem write is outside the model);
`none` models the `unwrap` panic when the focused index is out of range. -/
def UiState.save_state (st : UiState) : Option SavedState :=
  let active := st.windows.foldl saveStep []
  (st.windows.get? st.focused_window_index).map fun wf =>
    { focused_group := wf.process_group.title, active_processes := active }

/-- Rust `Iterator::find` on an enumerated list: index of the first element
satisfying the predicate. -/
def findIdxA (p : α → Bool) : List α → Option Nat
  | [] => none
  | a :: as => if p a then some 0 else (findIdxA p as).map (· + 1)

/-- `UiState::find_window_by_title` (the index half; the window itself is
re-read through the index). -/
def findWindowByTitle (st : UiState) (title : RStr) : Option Nat :=
  findIdxA (fun w => w.process_group.title = title) st.windows

/-- One `{title -> label}` entry of `load_state`'s restore loop: look the
group up by title, find the member with the remembered label, `set_active`
that index; silently skip when either lookup fails. -/
def loadEntry (env : SpawnEnv) (st : UiState) (e : RStr × RStr) : UiState :=
  match findWindowByTitle st e.1 with
  | none => st
  | some i =>
    match st.windows.get? i with
    | none => st
    | some w =>
      match findIdxA (fun p => p.label = e.2) w.process_group.members with
      | none => st
      | some j =>
        { st with windows := st.windows.set i (w.set_active env st.surface_dim j) }

/-- `UiState::load_state`: an absent file (`store = none`) is `Ok` with the
state untouched; otherwise restore focus by title, then replay every
remembered `{title -> label}` pair. -/
def UiState.load_state (env : SpawnEnv) (store : Option SavedState)
    (st : UiState) : Except Unit UiState :=
  match store with
  | none => Except.ok st
  | some s =>
    let st1 := (match findWindowByTitle st s.focused_group with
      | some i => { st with focused_window_index := i }
      | none => st)
    Except.ok (s.active_processes.foldl (loadEntry env) st1)

theorem btreeInsert_entries (k v : RStr) :
    ∀ (m : List (RStr × RStr)), k ∉ m.map Prod.fst →
    ∀ x, x ∈ btreeInsert k v m ↔ x = (k, v) ∨ x ∈ m
  | [], _, x => by simp [btreeInsert]
  | kv :: rest, hk, x => by
    have hk1 : k ≠ kv.1 := fun hc => hk (by simp [hc])
    have hkr : k ∉ rest.map Prod.fst := fun hc => hk (by simp [hc])
    rw [btreeInsert]
    by_cases hlt : strLt k kv.1 = true
    · simp only [hlt, if_true, List.mem_cons]
    · rw [if_neg hlt, if_neg hk1]
      simp only [List.mem_cons, btreeInsert_entries k v rest hkr x]
      tauto

theorem btreeInsert_keys (k v : RStr) :
    ∀ (m : List (RStr × RStr)), k ∉ m.map Prod.fst →
    ∀ t, t ∈ (btreeInsert k v m).map Prod.fst ↔ t = k ∨ t ∈ m.map Prod.fst
  | [], _, t => by simp [btreeInsert]
  | kv :: rest, hk, t => by
    have hk1 : k ≠ kv.1 := fun hc => hk (by simp [hc])
    have hkr : k ∉ rest.map Prod.fst := fun hc => hk (by simp [hc])
    rw [btreeInsert]
    by_cases hlt : strLt k kv.1 = true
    · simp only [hlt, if_true, List.map_cons, List.mem_cons]
    · rw [if_neg hlt, if_neg hk1]
      simp only [List.map_cons, List.mem_cons, btreeInsert_keys k v rest hkr t]
      tauto

theorem btreeInsert_nodup (k v : RStr) :
    ∀ (m : List (RStr × RStr)), k ∉ m.map Prod.fst →
    (m.map Prod.fst).Nodup → ((btreeInsert k v m).map Prod.fst).Nodup
  | [], _, _ => by simp [btreeInsert]
  | kv :: rest, hk, hm => by
    have hk1 : k ≠ kv.1 := fun hc => hk (by simp [hc])
    have hkr : k ∉ rest.map Prod.fst := fun hc => hk (by simp [hc])
    rw [btreeInsert]
    by_cases hlt : strLt k kv.1 = true
    · rw [if_pos hlt]
      simp only [List.map_cons, List.nodup_cons] at hm ⊢
      refine ⟨?_, hm.1, hm.2⟩
      intro hc
      rcases List.mem_cons.mp hc with hc | hc
      · exact hk1 hc
      · exact hkr hc
    · rw [if_neg hlt, if_neg hk1]
      simp only [List.map_cons, List.nodup_cons] at hm ⊢
      refine ⟨?_, btreeInsert_nodup k v rest hkr hm.2⟩
      intro hc
      rcases (btreeInsert_keys k v rest hkr kv.1).mp hc with hc | hc
      · exact hk1 hc.symm
      · exact hm.1 hc

theorem get_active_eq_some (w : UiWindow) (p : Process)
    (h : w.get_active = some p) :
    w.process_group.members.get? w.active_process_index = some p
    ∧ p ≠ Process.null := by
  rw [UiWindow.get_active] at h
  cases hm : w.process_group.members.get? w.active_process_index with
  | none => rw [hm] at h; exact absurd h (by simp)
  | some q =>
    rw [hm] at h
    cases q with
    | null => exact absurd h (by simp)
    | command l a =>
      have hpa : Process.command l a = p := by simpa using h
      exact ⟨by rw [hpa], by rw [← hpa]; simp⟩

theorem saveFold_spec : ∀ (ws : List UiWindow) (acc : List (RStr × RStr)),
    (ws.map fun w => w.process_group.title).Nodup →
    (acc.map Prod.fst).Nodup →
    (∀ w ∈ ws, w.process_group.title ∉ acc.map Prod.fst) →
    ((ws.foldl saveStep acc).map Prod.fst).Nodup
    ∧ (∀ x, x ∈ ws.foldl saveStep acc ↔ x ∈ acc ∨
        ∃ w ∈ ws, ∃ p, w.get_active = some p
          ∧ x = (w.process_group.title, p.label))
  | [], acc, _, hacc, _ => by
    refine ⟨hacc, fun x => ?_⟩
    simp
  | w :: ws, acc, hnd, hacc, hfresh => by
    have hndt : (ws.map fun w => w.process_group.title).Nodup :=
      (List.nodup_cons.mp hnd).2
    have hwt : w.process_group.title ∉ ws.map fun w => w.process_group.title :=
      (List.nodup_cons.mp hnd).1
    rw [List.foldl_cons]
    cases hga : w.get_active with
    | none =>
      have hstep : saveStep acc w = acc := by simp [saveStep, hga]
      rw [hstep]
      obtain ⟨h1, h2⟩ := saveFold_spec ws acc hndt hacc
        (fun x hx => hfresh x (List.mem_cons_of_mem w hx))
      refine ⟨h1, fun x => ?_⟩
      rw [h2 x]
      constructor
      · rintro (hx | ⟨w1, hw1, p, hp, hxp⟩)
        · exact Or.inl hx
        · exact Or.inr ⟨w1, List.mem_cons_of_mem w hw1, p, hp, hxp⟩
      · rintro (hx | ⟨w1, hw1, p, hp, hxp⟩)
        · exact Or.inl hx
        · rcases List.mem_cons.mp hw1 with rfl | hw1
          · rw [hga] at hp
            exact absurd hp (by simp)
          · exact Or.inr ⟨w1, hw1, p, hp, hxp⟩
    | some p =>
      have hwa : w.process_group.title ∉ acc.map Prod.fst :=
        hfresh w (List.mem_cons_self w ws)
      have hstep : saveStep acc w
          = btreeInsert w.process_group.title p.label acc := by
        simp [saveStep, hga]
      rw [hstep]
      have hacc2 := btreeInsert_nodup w.process_group.title p.label acc hwa hacc
      have hfresh2 : ∀ x ∈ ws, x.process_group.title ∉
          (btreeInsert w.process_group.title p.label acc).map Prod.fst := by
        intro x hx hc
        rcases (btreeInsert_keys w.process_group.title p.label acc hwa
            x.process_group.title).mp hc with hc | hc
        · exact hwt (hc ▸ List.mem_map_of_mem (fun w => w.process_group.title) hx)
        · exact hfresh x (List.mem_cons_of_mem w hx) hc
      obtain ⟨h1, h2⟩ := saveFold_spec ws
        (btreeInsert w.process_group.title p.label acc) hndt hacc2 hfresh2
      refine ⟨h1, fun x => ?_⟩
      rw [h2 x, btreeInsert_entries w.process_group.title p.label acc hwa x]
      constructor
      · rintro ((hx | hx) | ⟨w1, hw1, q, hq, hxq⟩)
        · exact Or.inr ⟨w, List.mem_cons_self w ws, p, hga, hx⟩
        · exact Or.inl hx
        · exact Or.inr ⟨w1, List.mem_cons_of_mem w hw1, q, hq, hxq⟩
      · rintro (hx | ⟨w1, hw1, q, hq, hxq⟩)
        · exact Or.inl (Or.inr hx)
        · rcases List.mem_cons.mp hw1 with rfl | hw1
          · rw [hga] at hq
            rw [hxq, Option.some.inj hq]
            exact Or.inl (Or.inl rfl)
          · exact Or.inr ⟨w1, hw1, q, hq, hxq⟩

theorem findIdxA_eq_some (p : α → Bool) :
    ∀ (l : List α) (i : Nat), findIdxA p l = some i →
    ∃ a, l.get? i = some a ∧ p a = true
  | [], i, h => by simp [findIdxA] at h
  | a :: as, i, h => by
    rw [findIdxA] at h
    by_cases hpa : p a = true
    · rw [if_pos hpa] at h
      rw [← Option.some.inj h]
      exact ⟨a, rfl, hpa⟩
    · rw [if_neg hpa] at h
      cases hr : findIdxA p as with
      | none => rw [hr] at h; exact absurd h (by simp)
      | some j =>
        rw [hr] at h
        have hij : i = j + 1 := (Option.some.inj h).symm
        obtain ⟨b, hb, hpb⟩ := findIdxA_eq_some p as j hr
        exact ⟨b, by rw [hij]; simpa using hb, hpb⟩

theorem findIdxA_first (l : List UiWindow) (t : RStr) :
    ∀ (i : Nat) (w : UiWindow),
    (l.map fun w => w.process_group.title).Nodup →
    l.get? i = some w → w.process_group.title = t →
    findIdxA (fun x => x.process_group.title = t) l = some i := by
  induction l with
  | nil => intro i w _ h _; simp at h
  | cons a as ih =>
    intro i w hnd hi ht
    rw [findIdxA]
    cases i with
    | zero =>
      have haw : a = w := Option.some.inj (by simpa using hi)
      rw [if_pos (by simp [haw, ht])]
    | succ j =>
      have hj : as.get? j = some w := by simpa using hi
      have hmem : w.process_group.title ∈ as.map fun x => x.process_group.title :=
        List.mem_map_of_mem _ (by
          have := List.get?_mem hj
          exact this)
      have hne : ¬ (a.process_group.title = t) := by
        intro hc
        apply (List.nodup_cons.mp hnd).1
        have haw : a.process_group.title = w.process_group.title :=
          hc.trans ht.symm
        simpa [haw] using hmem
      rw [if_neg (by simpa using hne),
        ih j w (List.nodup_cons.mp hnd).2 hj ht]
      rfl

theorem findIdxA_of_exists (p : α → Bool) :
    ∀ (l : List α), (∃ a ∈ l, p a = true) →
    ∃ i a, findIdxA p l = some i ∧ l.get? i = some a ∧ p a = true
  | [], h => by simp at h
  | a :: as, h => by
    rw [findIdxA]
    by_cases hpa : p a = true
    · exact ⟨0, a, by rw [if_pos hpa], rfl, hpa⟩
    · obtain ⟨b, hb, hpb⟩ := h
      rcases List.mem_cons.mp hb with rfl | hb
      · exact absurd hpb hpa
      · obtain ⟨i, c, hfi, hc, hpc⟩ := findIdxA_of_exists p as ⟨b, hb, hpb⟩
        exact ⟨i + 1, c, by rw [if_neg hpa, hfi]; rfl, by simpa using hc, hpc⟩

theorem set_get_self : ∀ (l : List α) (i : Nat) (a : α),
    l.get? i = some a → l.set i a = l
  | [], i, a, h => by simp at h
  | b :: bs, 0, a, h => by
    have : b = a := Option.some.inj (by simpa using h)
    rw [← this]
    rfl
  | b :: bs, i + 1, a, h => by
    rw [List.set_cons_succ, set_get_self bs i a (by simpa using h)]

theorem loadEntry_preserves (env : SpawnEnv) (st : UiState) (e : RStr × RStr) :
    (loadEntry env st e).windows.map (fun x => x.process_group)
        = st.windows.map (fun x => x.process_group)
    ∧ (loadEntry env st e).focused_window_index = st.focused_window_index
    ∧ (loadEntry env st e).surface_dim = st.surface_dim := by
  cases hf : findWindowByTitle st e.1 with
  | none => simp [loadEntry, hf]
  | some i =>
    cases hw : st.windows.get? i with
    | none =>
      have hw2 : st.windows[i]? = none := by
        rw [← List.get?_eq_getElem?]
        exact hw
      simp [loadEntry, hf, hw2]
    | some w =>
      have hw2 : st.windows[i]? = some w := by
        rw [← List.get?_eq_getElem?]
        exact hw
      cases hj : findIdxA (fun p => p.label = e.2) w.process_group.members with
      | none => simp [loadEntry, hf, hw2, hj]
      | some j =>
        have hle : loadEntry env st e =
            { st with windows :=
                st.windows.set i (w.set_active env st.surface_dim j) } := by
          simp [loadEntry, hf, hw2, hj]
        rw [hle]
        refine ⟨?_, rfl, rfl⟩
        show (st.windows.set i (w.set_active env st.surface_dim j)).map
            (fun x => x.process_group) = st.windows.map fun x => x.process_group
        rw [List.map_set, set_active_members]
        apply set_get_self
        rw [List.get?_map, hw]
        rfl

theorem loadEntry_untouched (env : SpawnEnv) (st : UiState) (e : RStr × RStr)
    (j : Nat) (w : UiWindow) (hj : st.windows.get? j = some w)
    (hne : w.process_group.title ≠ e.1) :
    (loadEntry env st e).windows.get? j = st.windows.get? j := by
  cases hf : findWindowByTitle st e.1 with
  | none => simp [loadEntry, hf]
  | some i =>
    cases hwi : st.windows.get? i with
    | none =>
      have hw2 : st.windows[i]? = none := by
        rw [← List.get?_eq_getElem?]
        exact hwi
      simp [loadEntry, hf, hw2]
    | some wi =>
      have hw2 : st.windows[i]? = some wi := by
        rw [← List.get?_eq_getElem?]
        exact hwi
      cases hfj : findIdxA (fun p => p.label = e.2) wi.process_group.members with
      | none => simp [loadEntry, hf, hw2, hfj]
      | some jj =>
        have hle : loadEntry env st e =
            { st with windows :=
                st.windows.set i (wi.set_active env st.surface_dim jj) } := by
          simp [loadEntry, hf, hw2, hfj]
        rw [hle]
        have hii : i ≠ j := by
          intro hc
          subst hc
          obtain ⟨a, ha, hpa⟩ := findIdxA_eq_some _ st.windows i hf
          have haw : a = wi := by rw [ha] at hwi; exact Option.some.inj hwi
          have hww : w = wi := by rw [hj] at hwi; exact Option.some.inj hwi
          rw [haw] at hpa
          exact hne (by rw [hww]; exact of_decide_eq_true hpa)
        exact List.get?_set_ne _ _ hii

theorem loadEntry_hit (env : SpawnEnv) (st : UiState) (e : RStr × RStr)
    (k : Nat) (w : UiWindow)
    (hnd : (st.windows.map fun x => x.process_group.title).Nodup)
    (hk : st.windows.get? k = some w) (ht : w.process_group.title = e.1)
    (hlab : ∃ j p, w.process_group.members.get? j = some p ∧ p.label = e.2) :
    ∃ w', (loadEntry env st e).windows.get? k = some w'
      ∧ w'.process_group = w.process_group
      ∧ (w'.process_group.members.get? w'.active_process_index).map
          Process.label = some e.2 := by
  have hfind : findWindowByTitle st e.1 = some k :=
    findIdxA_first st.windows e.1 k w hnd hk ht
  obtain ⟨jw, pw, hjw, hpw⟩ := hlab
  obtain ⟨jj, q, hfj, hq, hpq⟩ := findIdxA_of_exists
    (fun p => p.label = e.2) w.process_group.members
    ⟨pw, List.get?_mem hjw, by simp [hpw]⟩
  have hklen : k < st.windows.length := List.get?_eq_some.mp hk |>.1
  obtain ⟨hidx, _⟩ := set_active_in_range env st.surface_dim w jj q hq
  have hgm := set_active_members env st.surface_dim w jj
  have hk2 : st.windows[k]? = some w := by
    rw [← List.get?_eq_getElem?]
    exact hk
  have hle : loadEntry env st e =
      { st with windows :=
          st.windows.set k (w.set_active env st.surface_dim jj) } := by
    simp [loadEntry, hfind, hk2, hfj]
  rw [hle]
  refine ⟨w.set_active env st.surface_dim jj, ?_, hgm, ?_⟩
  · exact List.get?_set_eq_of_lt _ hklen
  · rw [hgm, hidx, hq]
    have : q.label = e.2 := of_decide_eq_true hpq
    simp [this]

theorem loadFold_preserves (env : SpawnEnv) :
    ∀ (es : List (RStr × RStr)) (st : UiState),
    (es.foldl (loadEntry env) st).focused_window_index = st.focused_window_index
    ∧ (es.foldl (loadEntry env) st).windows.map (fun x => x.process_group)
        = st.windows.map (fun x => x.process_group)
    ∧ (es.foldl (loadEntry env) st).surface_dim = st.surface_dim
  | [], st => ⟨rfl, rfl, rfl⟩
  | e :: es, st => by
    obtain ⟨p1, p2, p3⟩ := loadEntry_preserves env st e
    obtain ⟨q1, q2, q3⟩ := loadFold_preserves env es (loadEntry env st e)
    exact ⟨q1.trans p2, q2.trans p1, q3.trans p3⟩

theorem titles_eq_of_groups_eq (l1 l2 : List UiWindow)
    (h : l1.map (fun x => x.process_group) = l2.map fun x => x.process_group) :
    l1.map (fun x => x.process_group.title) = l2.map fun x => x.process_group.title := by
  have h1 : l1.map (fun x => x.process_group.title)
      = (l1.map fun x => x.process_group).map (fun g => g.title) := by
    rw [List.map_map]
    rfl
  have h2 : l2.map (fun x => x.process_group.title)
      = (l2.map fun x => x.process_group).map (fun g => g.title) := by
    rw [List.map_map]
    rfl
  rw [h1, h2, h]

theorem loadFold_spec (env : SpawnEnv) : ∀ (es : List (RStr × RStr)) (st : UiState),
    (st.windows.map fun x => x.process_group.title).Nodup →
    (es.map Prod.fst).Nodup →
    ∀ k w, st.windows.get? k = some w →
    ((∀ v, (w.process_group.title, v) ∉ es) →
      (es.foldl (loadEntry env) st).windows.get? k = some w)
    ∧ (∀ v, (w.process_group.title, v) ∈ es →
        (∃ j p, w.process_group.members.get? j = some p ∧ p.label = v) →
        ∃ w', (es.foldl (loadEntry env) st).windows.get? k = some w'
          ∧ w'.process_group = w.process_group
          ∧ (w'.process_group.members.get? w'.active_process_index).map
              Process.label = some v)
  | [], st, _, _, k, w, hk =>
    ⟨fun _ => hk, fun v hv _ => absurd hv (by simp)⟩
  | e :: es, st, hnd, hkeys, k, w, hk => by
    have hkeys2 : (es.map Prod.fst).Nodup := (List.nodup_cons.mp hkeys).2
    have hheadfresh : e.1 ∉ es.map Prod.fst := (List.nodup_cons.mp hkeys).1
    have hnd' : ((loadEntry env st e).windows.map
        fun x => x.process_group.title).Nodup := by
      rw [titles_eq_of_groups_eq _ _ (loadEntry_preserves env st e).1]
      exact hnd
    by_cases hte : w.process_group.title = e.1
    · constructor
      · intro hno
        have hmem : (w.process_group.title, e.2) ∈ e :: es := by
          rw [hte]
          exact (show (e.1, e.2) = e from rfl) ▸ List.mem_cons_self e es
        exact absurd hmem (hno e.2)
      · intro v hv hlab
        have hv2 : v = e.2 := by
          rcases List.mem_cons.mp hv with hv | hv
          · simpa using congrArg Prod.snd hv
          · refine absurd ?_ hheadfresh
            have := List.mem_map_of_mem Prod.fst hv
            rw [← hte]
            exact this
        subst hv2
        obtain ⟨w', hw', hgrp, hlabel⟩ := loadEntry_hit env st e k w hnd hk hte hlab
        have hrest := (loadFold_spec env es (loadEntry env st e)
          hnd' hkeys2 k w' hw').1
        have hno' : ∀ u, (w'.process_group.title, u) ∉ es := by
          intro u hu
          apply hheadfresh
          have hmem := List.mem_map_of_mem Prod.fst hu
          have htitle : w'.process_group.title = e.1 := by
            rw [hgrp]
            exact hte
          rw [← htitle]
          exact hmem
        rw [List.foldl_cons]
        exact ⟨w', hrest hno', hgrp, hlabel⟩
    · have hk2 : (loadEntry env st e).windows.get? k = some w := by
        rw [loadEntry_untouched env st e k w hk hte]
        exact hk
      have ih := loadFold_spec env es (loadEntry env st e) hnd' hkeys2 k w hk2
      rw [List.foldl_cons]
      constructor
      · intro hno
        exact ih.1 fun v hv => hno v (List.mem_cons_of_mem e hv)
      · intro v hv hlab
        rcases List.mem_cons.mp hv with hv | hv
        · exact absurd (by simpa using congrArg Prod.fst hv) hte
        · exact ih.2 v hv hlab

/-- C6: with distinct group titles, `save_state` followed by `load_state`
over an unchanged Group set restores the focused group (found by title
lookup) and re-activates, for every group that had an active non-Disabled
member, a member carrying the same label; a load entry whose group title or
member label no longer exists is silently skipped; and an absent persisted
file makes `load_state` an `Ok` no-op. -/
theorem C6_save_load_roundtrip (env : SpawnEnv) (st st2 : UiState)
    (s : SavedState)
    (hnd : (st.windows.map fun x => x.process_group.title).Nodup)
    (hsave : st.save_state = some s)
    (hsame : st2.windows.map (fun x => x.process_group)
        = st.windows.map fun x => x.process_group) :
    (∃ st3, UiState.load_state env (some s) st2 = Except.ok st3
      ∧ st3.focused_window_index = st.focused_window_index
      ∧ (∀ k w p, st.windows.get? k = some w → w.get_active = some p →
          ∃ w', st3.windows.get? k = some w'
            ∧ w'.process_group = w.process_group
            ∧ (w'.process_group.members.get? w'.active_process_index).map
                Process.label = some p.label))
    ∧ (∀ stx e, findWindowByTitle stx e.1 = none → loadEntry env stx e = stx)
    ∧ (∀ stx e i wx, findWindowByTitle stx e.1 = some i →
        stx.windows.get? i = some wx →
        findIdxA (fun q => q.label = e.2) wx.process_group.members = none →
        loadEntry env stx e = stx)
    ∧ UiState.load_state env none st2 = Except.ok st2 := by
  obtain ⟨wf, hwf, hs⟩ : ∃ wf, st.windows.get? st.focused_window_index = some wf
      ∧ s = { focused_group := wf.process_group.title,
              active_processes := st.windows.foldl saveStep [] } := by
    rw [UiState.save_state] at hsave
    cases hg : st.windows.get? st.focused_window_index with
    | none => rw [hg] at hsave; exact absurd hsave (by simp)
    | some wf => rw [hg] at hsave; exact ⟨wf, rfl, (Option.some.inj hsave).symm⟩
  subst hs
  have hfoc : st.focused_window_index < st.windows.length :=
    (List.get?_eq_some.mp hwf).1
  have hlen : st2.windows.length = st.windows.length := by
    have := congrArg List.length hsame
    simpa using this
  have htitles := titles_eq_of_groups_eq st2.windows st.windows hsame
  have hnd2 : (st2.windows.map fun x => x.process_group.title).Nodup := by
    rw [htitles]
    exact hnd
  obtain ⟨w2f, hw2f⟩ : ∃ w2, st2.windows.get? st.focused_window_index = some w2 :=
    ⟨_, List.get?_eq_get (by rw [hlen]; exact hfoc)⟩
  have hgrp2f : w2f.process_group = wf.process_group := by
    have h1 := congrArg (fun l => l.get? st.focused_window_index) hsame
    simp only [List.get?_map] at h1
    rw [hw2f, hwf] at h1
    simpa using h1
  have hfind2 : findWindowByTitle st2 wf.process_group.title
      = some st.focused_window_index :=
    findIdxA_first st2.windows wf.process_group.title st.focused_window_index
      w2f hnd2 hw2f (congrArg ProcessGroup.title hgrp2f)
  obtain ⟨hkeysnd, hment⟩ := saveFold_spec st.windows [] hnd (by simp) (by simp)
  refine ⟨⟨(st.windows.foldl saveStep []).foldl (loadEntry env)
      { st2 with focused_window_index := st.focused_window_index }, ?_, ?_, ?_⟩,
    ?_, ?_, rfl⟩
  · rw [UiState.load_state, hfind2]
  · have := (loadFold_preserves env (st.windows.foldl saveStep [])
      { st2 with focused_window_index := st.focused_window_index }).1
    rw [this]
  · intro k w p hkw hga
    have hklen : k < st.windows.length := (List.get?_eq_some.mp hkw).1
    obtain ⟨w2, hw2⟩ : ∃ w2, st2.windows.get? k = some w2 :=
      ⟨_, List.get?_eq_get (by rw [hlen]; exact hklen)⟩
    have hgrpk : w2.process_group = w.process_group := by
      have h1 := congrArg (fun l => l.get? k) hsame
      simp only [List.get?_map] at h1
      rw [hw2, hkw] at h1
      simpa using h1
    have hmem : (w.process_group.title, p.label)
        ∈ st.windows.foldl saveStep [] :=
      (hment _).mpr (Or.inr ⟨w, List.get?_mem hkw, p, hga, rfl⟩)
    obtain ⟨hma, _⟩ := get_active_eq_some w p hga
    have hlab : ∃ j q, w2.process_group.members.get? j = some q
        ∧ q.label = p.label :=
      ⟨w.active_process_index, p, by rw [hgrpk]; exact hma, rfl⟩
    have hnd1 : (({ st2 with focused_window_index := st.focused_window_index } :
        UiState).windows.map fun x => x.process_group.title).Nodup := hnd2
    obtain ⟨w', hw', hgrp', hlabel⟩ :=
      (loadFold_spec env (st.windows.foldl saveStep [])
        { st2 with focused_window_index := st.focused_window_index }
        hnd1 hkeysnd k w2 hw2).2 p.label
        (by rw [show w2.process_group.title = w.process_group.title from
          congrArg ProcessGroup.title hgrpk]; exact hmem) hlab
    exact ⟨w', hw', hgrp'.trans hgrpk, hlabel⟩
  · intro stx e hnone
    simp [loadEntry, hnone]
  · intro stx e i wx hfi hwx hjn
    have hw2 : stx.windows[i]? = some wx := by
      rw [← List.get?_eq_getElem?]
      exact hwx
    simp [loadEntry, hfi, hw2, hjn]

theorem C6_save_load_roundtrip_witness :
    ∃ st3, UiState.load_state (fun _ => none)
        (some (SavedState.mk "b".toList [("a".toList, "x".toList)]))
        (UiState.new []
          [ProcessGroup.mk "a".toList
            [Process.null, Process.command "x".toList "cmd1".toList],
           ProcessGroup.mk "b".toList
            [Process.null, Process.command "y".toList "cmd2".toList]]
          (80, 24))
      = Except.ok st3
    ∧ st3.focused_window_index = 1
    ∧ ∃ w', st3.windows.get? 0 = some w'
        ∧ (w'.process_group.members.get? w'.active_process_index).map
            Process.label = some "x".toList := by
  have h := C6_save_load_roundtrip (fun _ => none)
    (UiState.mk [] 1
      [UiWindow.mk (ProcessGroup.mk "a".toList
        [Process.null, Process.command "x".toList "cmd1".toList]) 1 none,
       UiWindow.mk (ProcessGroup.mk "b".toList
        [Process.null, Process.command "y".toList "cmd2".toList]) 0 none]
      (80, 24) 2 false)
    (UiState.new []
      [ProcessGroup.mk "a".toList
        [Process.null, Process.command "x".toList "cmd1".toList],
       ProcessGroup.mk "b".toList
        [Process.null, Process.command "y".toList "cmd2".toList]]
      (80, 24))
    (SavedState.mk "b".toList [("a".toList, "x".toList)])
    (by decide) (by decide) (by decide)
  obtain ⟨⟨st3, hload, hfoc, hall⟩, _, _, _⟩ := h
  obtain ⟨w', hw', _, hlabel⟩ := hall 0
    (UiWindow.mk (ProcessGroup.mk "a".toList
      [Process.null, Process.command "x".toList "cmd1".toList]) 1 none)
    (Process.command "x".toList "cmd1".toList) (by decide) (by decide)
  exact ⟨st3, hload, hfoc, w', hw', hlabel⟩

end Sudare
